import Mathlib

/-!
Verification of the merge/reconciliation logic of `data_extraction.py`.

The program's records are Python dicts mapping field names to JSON scalars
(string, number, null).  We embed a dict as an insertion-ordered association
list with distinct keys, which matches Python dict semantics: lookup finds the
unique entry, assignment replaces the value in place (keeping the key's
position) or appends a fresh entry at the end, and iteration follows insertion
order.  JSON numbers are embedded as rationals; the merge code only copies
values around and never computes with them, so the exact numeric carrier is
irrelevant.  A `KeyError` raised by `data_point['date']` is embedded as
`Except.error MergeError.malformedRecord`.
-/

namespace StockResearch

/-- A JSON scalar value as it appears in a field of an API record:
`null`, a string, or a number. -/
inductive JValue where
  | jnull : JValue
  | jstr : String → JValue
  | jnum : Rat → JValue
deriving DecidableEq, Repr

/-- A Python dict from field names to scalar values, as an insertion-ordered
association list.  Well-formed dicts have pairwise-distinct keys. -/
abbrev Record := List (String × JValue)

/-- Python `r[k]` / `r.get(k)` lookup: the value of the first (in a
well-formed dict, the only) entry with key `k`. -/
def dget : Record → String → Option JValue
  | [], _ => none
  | p :: r, k => if p.1 = k then some p.2 else dget r k

/-- Python `r.get(k)`: the stored value, or `None` when the key is absent. -/
def getOrNull (r : Record) (k : String) : JValue :=
  (dget r k).getD .jnull

/-- Python `k in r`. -/
def hasKey (r : Record) (k : String) : Bool :=
  (dget r k).isSome

/-- Python `r[k] = v`: replace the value of the existing entry for `k` in
place, or append a fresh entry at the end. -/
def dset : Record → String → JValue → Record
  | [], k, v => [(k, v)]
  | p :: r, k, v => if p.1 = k then (k, v) :: r else p :: dset r k v

/-- Python `r.update(m)`: assign every entry of `m` into `r`, in `m`'s
iteration order. -/
def dupdate (r : Record) (m : Record) : Record :=
  m.foldl (fun acc p => dset acc p.1 p.2) r

/-- The `merged_data` accumulator: a Python dict from date values to record
dicts, again as an insertion-ordered association list. -/
abbrev Acc := List (JValue × Record)

/-- Lookup in the accumulator dict. -/
def accGet : Acc → JValue → Option Record
  | [], _ => none
  | e :: acc, d => if e.1 = d then some e.2 else accGet acc d

/-- Python `d in merged_data`. -/
def accHas (acc : Acc) (d : JValue) : Bool :=
  (accGet acc d).isSome

/-- Apply `f` to the record stored under date `d` (the date is present
whenever this is called). -/
def accSet : Acc → JValue → (Record → Record) → Acc
  | [], _, _ => []
  | e :: acc, d, f => if e.1 = d then (e.1, f e.2) :: acc else e :: accSet acc d f

/-- The single failure mode of the merge operations: a record without a
`date` field (a Python `KeyError` on `item['date']`). -/
inductive MergeError where
  | malformedRecord : MergeError
deriving DecidableEq, Repr

/-- The fixed baseline envelope written when a date is first seen
(`merged_data[date].update({'date': ..., 'open': ..., ...})` on the fresh
empty dict the `defaultdict` creates): keys in the literal's order, values
taken from the first record observed for that date, `null` when absent. -/
def baseline (d : JValue) (p : Record) : Record :=
  dupdate [] [("date", d), ("open", getOrNull p "open"), ("high", getOrNull p "high"),
    ("low", getOrNull p "low"), ("close", getOrNull p "close"),
    ("volume", getOrNull p "volume")]

/-- One iteration of the inner loop of `merge_indicators_by_date` for a data
point `p` of the category named `name`: read `p['date']` (error when absent),
install the baseline envelope if the date is new, then set the field named
after the category to `p.get(name)`. -/
def indStep (name : String) (acc : Acc) (p : Record) : Except MergeError Acc :=
  match dget p "date" with
  | none => .error .malformedRecord
  | some d =>
    let acc1 := if accHas acc d then acc else acc ++ [(d, baseline d p)]
    .ok (accSet acc1 d (fun r => dset r name (getOrNull p name)))

/-- One iteration of the merge loop of `merge_quarterly_fundamental_data` for
a record `item`: read `item['date']` (error when absent), then
`merged_data[date].update(item)` — the `defaultdict` supplies an empty dict
for a new date. -/
def fieldStep (acc : Acc) (item : Record) : Except MergeError Acc :=
  match dget item "date" with
  | none => .error .malformedRecord
  | some d =>
    let acc1 := if accHas acc d then acc else acc ++ [(d, [])]
    .ok (accSet acc1 d (fun r => dupdate r item))

instance {e a : Type} [DecidableEq e] [DecidableEq a] : DecidableEq (Except e a)
  | .error e1, .error e2 =>
    if h : e1 = e2 then isTrue (by rw [h])
    else isFalse (by intro hh; cases hh; exact h rfl)
  | .error _, .ok _ => isFalse (by intro hh; cases hh)
  | .ok _, .error _ => isFalse (by intro hh; cases hh)
  | .ok a1, .ok a2 =>
    if h : a1 = a2 then isTrue (by rw [h])
    else isFalse (by intro hh; cases hh; exact h rfl)

/-- Ordering used by the final `result.sort(key=lambda x: x['date'],
reverse=True)`.  In the program dates are ISO date strings compared by
Python's string order; on strings `jle` is exactly that order, and on numbers
the numeric order.  Python raises `TypeError` on cross-type comparison, which
never happens for single-typed date columns; the cross-type cases below
merely totalize the relation and are unused by the theorems. -/
def jle (a b : JValue) : Bool :=
  match a, b with
  | .jstr x, .jstr y => decide (x ≤ y)
  | .jnum x, .jnum y => decide (x ≤ y)
  | .jnull, _ => true
  | _, .jnull => false
  | .jnum _, .jstr _ => true
  | .jstr _, .jnum _ => false

/-- The sort key `x['date']` (total on records; every sorted record has a
`date` field wherever the program sorts). -/
def dateKey (r : Record) : JValue :=
  getOrNull r "date"

/-- `a` sorts no later than `b` in the descending-by-date order. -/
def dateGE (a b : Record) : Prop :=
  jle (dateKey b) (dateKey a) = true

instance : DecidableRel dateGE := fun _a _b =>
  inferInstanceAs (Decidable (_ = true))

theorem jle_total (a b : JValue) : jle a b = true ∨ jle b a = true := by
  cases a <;> cases b <;> simp [jle] <;> apply le_total

theorem jle_trans {a b c : JValue} (h1 : jle a b = true) (h2 : jle b c = true) :
    jle a c = true := by
  cases a <;> cases b <;> cases c <;> simp_all [jle] <;> exact le_trans h1 h2

instance : IsTotal Record dateGE :=
  ⟨fun a b =>
    match jle_total (dateKey b) (dateKey a) with
    | .inl h => .inl h
    | .inr h => .inr h⟩

instance : IsTrans Record dateGE :=
  ⟨fun _ _ _ h1 h2 => jle_trans h2 h1⟩

/-- Python's `list.sort` is a stable sort; a stable sort's output is uniquely
determined by the comparison, so the stable `insertionSort` computes exactly
the same list as Python's Timsort. -/
def sortDesc (rs : List Record) : List Record :=
  List.insertionSort dateGE rs

/-- `merge_indicators_by_date` (src/data_extraction.py:113-135), with the
input dict of category name to fetched record list passed in insertion
order. -/
def merge_indicators_by_date (indicators : List (String × List Record)) :
    Except MergeError (List Record) := do
  let acc ← indicators.foldlM (fun acc c => c.2.foldlM (indStep c.1) acc) ([] : Acc)
  pure (sortDesc (acc.map Prod.snd))

/-- The merge loop of `merge_quarterly_fundamental_data`
(src/data_extraction.py:191-214).  The function first fetches
`[income_data, balance_data, cash_flow_data]`; the fetch is I/O, so the
ordered sequence of fetched source lists is a parameter here. -/
def merge_quarterly_fundamental_data (sources : List (List Record)) :
    Except MergeError (List Record) := do
  let acc ← sources.foldlM (fun acc data => data.foldlM fieldStep acc) ([] : Acc)
  pure (sortDesc (acc.map Prod.snd))

/-- The merge step of `merge_financial_growth_data`
(src/data_extraction.py:237-243): sort the single fetched list by date
descending, no cross-record merge.  `x['date']` on a record without a date
raises, embedded as the error branch. -/
def merge_financial_growth_data (growth_data : List Record) :
    Except MergeError (List Record) :=
  if growth_data.all (fun r => (dget r "date").isSome) then .ok (sortDesc growth_data)
  else .error .malformedRecord

/-- The merge step of `merge_as_reported_financial_data`
(src/data_extraction.py:252-258): identical sort-only behavior. -/
def merge_as_reported_financial_data (financial_data : List Record) :
    Except MergeError (List Record) :=
  if financial_data.all (fun r => (dget r "date").isSome) then .ok (sortDesc financial_data)
  else .error .malformedRecord

/-! ### Basic dictionary lemmas -/

theorem dget_dset (r : Record) (k k' : String) (v : JValue) :
    dget (dset r k v) k' = if k = k' then some v else dget r k' := by
  induction r with
  | nil => simp [dset, dget]
  | cons p r ih =>
    by_cases h : p.1 = k
    · subst h
      simp only [dset, if_pos rfl, dget]
      by_cases hk : p.1 = k' <;> simp [hk]
    · simp only [dset, if_neg h, dget]
      by_cases h2 : p.1 = k'
      · have hkk : ¬ k = k' := fun hk => h (h2.trans hk.symm)
        simp [h2, hkk]
      · simp [h2, ih]

theorem hasKey_iff {r : Record} {k : String} :
    hasKey r k = true ↔ ∃ v, dget r k = some v := by
  simp [hasKey, Option.isSome_iff_exists]

theorem hasKey_iff_mem {r : Record} {k : String} :
    hasKey r k = true ↔ k ∈ r.map Prod.fst := by
  induction r with
  | nil => simp [hasKey, dget]
  | cons p r ih =>
    simp only [List.map_cons, List.mem_cons]
    by_cases h : p.1 = k
    · subst h
      simp [hasKey, dget]
    · have hk : ¬ k = p.1 := fun hk => h hk.symm
      simp only [hasKey, dget, if_neg h] at ih ⊢
      rw [ih]
      simp [hk]

theorem hasKey_dset (r : Record) (k k' : String) (v : JValue) :
    hasKey (dset r k v) k' = (decide (k = k') || hasKey r k') := by
  by_cases h : k = k' <;> simp [hasKey, dget_dset, h]

theorem dupdate_nil (r : Record) : dupdate r [] = r := rfl

theorem dupdate_cons (r : Record) (p : String × JValue) (m : Record) :
    dupdate r (p :: m) = dupdate (dset r p.1 p.2) m := rfl

theorem hasKey_dupdate (r m : Record) (k : String) :
    hasKey (dupdate r m) k = (hasKey r k || hasKey m k) := by
  induction m generalizing r with
  | nil => simp [dupdate_nil, hasKey, dget]
  | cons p m ih =>
    rw [dupdate_cons, ih, hasKey_dset]
    by_cases h : p.1 = k
    · simp [hasKey, dget, h, Bool.or_comm, Bool.or_left_comm]
    · simp [hasKey, dget, h, Bool.or_comm, Bool.or_left_comm]

/-- Looking up `k` after `r.update(m)`: the value from `m` when `m` binds `k`
(well-formed `m`: pairwise-distinct keys, as in every Python dict), otherwise
the old value from `r`. -/
theorem dget_dupdate (r m : Record) (k : String) (hm : (m.map Prod.fst).Nodup) :
    dget (dupdate r m) k = if hasKey m k then dget m k else dget r k := by
  induction m generalizing r with
  | nil => simp [dupdate_nil, hasKey, dget]
  | cons p m ih =>
    simp only [List.map_cons, List.nodup_cons] at hm
    rw [dupdate_cons, ih _ hm.2]
    by_cases h : p.1 = k
    · subst h
      have hmk : hasKey m p.1 = false := by
        rw [Bool.eq_false_iff]
        intro hh
        exact hm.1 (hasKey_iff_mem.1 hh)
      have h1 : hasKey (p :: m) p.1 = true := by simp [hasKey, dget]
      simp [hmk, h1, dget_dset, dget]
    · have h2 : dget (p :: m) k = dget m k := by simp [dget, h]
      have h3 : hasKey (p :: m) k = hasKey m k := by simp [hasKey, h2]
      rw [dget_dset, if_neg h, h2, h3]

/-! ### Accumulator lemmas -/

theorem accGet_accSet (acc : Acc) (d d' : JValue) (f : Record → Record) :
    accGet (accSet acc d f) d' =
      if d' = d then (accGet acc d).map f else accGet acc d' := by
  induction acc with
  | nil => by_cases h : d' = d <;> simp [accSet, accGet, h]
  | cons e acc ih =>
    by_cases h : e.1 = d
    · subst h
      simp only [accSet, if_pos rfl]
      by_cases h2 : e.1 = d'
      · subst h2
        simp [accGet]
      · have h3 : ¬ d' = e.1 := fun hh => h2 hh.symm
        simp [accGet, h2, h3]
    · simp only [accSet, if_neg h, accGet]
      by_cases h2 : e.1 = d'
      · subst h2
        simp [accGet, h]
      · simp only [if_neg h2, ih]

theorem accGet_append (acc acc2 : Acc) (d : JValue) :
    accGet (acc ++ acc2) d =
      if (accGet acc d).isSome then accGet acc d else accGet acc2 d := by
  induction acc with
  | nil => simp [accGet]
  | cons e acc ih =>
    by_cases h : e.1 = d <;> simp [accGet, h, ih]

theorem accGet_isSome_iff_mem (acc : Acc) (d : JValue) :
    (accGet acc d).isSome = true ↔ d ∈ acc.map Prod.fst := by
  induction acc with
  | nil => simp [accGet]
  | cons e acc ih =>
    simp only [List.map_cons, List.mem_cons]
    by_cases h : e.1 = d
    · subst h
      simp [accGet]
    · have hk : ¬ d = e.1 := fun hh => h hh.symm
      simp [accGet, h, ih, hk]

theorem keys_accSet (acc : Acc) (d : JValue) (f : Record → Record) :
    (accSet acc d f).map Prod.fst = acc.map Prod.fst := by
  induction acc with
  | nil => simp [accSet]
  | cons e acc ih =>
    by_cases h : e.1 = d <;> simp [accSet, h, ih]

theorem accGet_of_mem {acc : Acc} (h : (acc.map Prod.fst).Nodup)
    {e : JValue × Record} (he : e ∈ acc) : accGet acc e.1 = some e.2 := by
  induction acc with
  | nil => cases he
  | cons x acc ih =>
    simp only [List.map_cons, List.nodup_cons] at h
    rcases List.mem_cons.1 he with he | he
    · subst he
      simp [accGet]
    · have hx : ¬ x.1 = e.1 := by
        intro hh
        exact h.1 (hh ▸ List.mem_map_of_mem Prod.fst he)
      simp [accGet, hx, ih h.2 he]

/-! ### Generic lemmas about the merge loops -/

/-- A loop whose body reads `item['date']` and otherwise makes a pure
accumulator step either fails at the first record without a date, or
computes the pure fold. -/
theorem foldlM_guard {σ β : Type} (key : β → Option JValue) (g : σ → β → σ)
    (f : σ → β → Except MergeError σ)
    (hf : ∀ s x, f s x =
      match key x with
      | none => .error .malformedRecord
      | some _ => .ok (g s x))
    (ps : List β) (s0 : σ) :
    ps.foldlM f s0 =
      if ps.all (fun x => (key x).isSome) then .ok (ps.foldl g s0)
      else .error .malformedRecord := by
  induction ps generalizing s0 with
  | nil => rfl
  | cons x ps ih =>
    rw [List.foldlM_cons, hf]
    cases h : key x with
    | none =>
      have hall : ((x :: ps).all fun y => (key y).isSome) = false := by simp [h]
      rw [hall]
      rfl
    | some d =>
      have hbind : (Except.ok (g s0 x) >>= fun s1 => ps.foldlM f s1) = ps.foldlM f (g s0 x) := rfl
      rw [hbind, ih]
      simp [h]

/-- Invariant preservation through an `Except`-valued fold. -/
theorem foldlM_inv {σ β : Type} (f : σ → β → Except MergeError σ) (Inv : σ → Prop)
    (hstep : ∀ s x s1, Inv s → f s x = .ok s1 → Inv s1) :
    ∀ (ps : List β) (s0 : σ), Inv s0 → ∀ s1, ps.foldlM f s0 = .ok s1 → Inv s1 := by
  intro ps
  induction ps with
  | nil =>
    intro s0 h0 s1 h1
    cases h1
    exact h0
  | cons x ps ih =>
    intro s0 h0 s1 h1
    rw [List.foldlM_cons] at h1
    cases hx : f s0 x with
    | error e => rw [hx] at h1; cases h1
    | ok s2 =>
      rw [hx] at h1
      exact ih s2 (hstep s0 x s2 h0 hx) s1 h1

/-- The loop over a list of source lists is the loop over their
concatenation. -/
theorem foldlM_flatten {σ β : Type} (f : σ → β → Except MergeError σ)
    (L : List (List β)) (s0 : σ) :
    L.foldlM (fun s l => l.foldlM f s) s0 = L.flatten.foldlM f s0 := by
  induction L generalizing s0 with
  | nil => rfl
  | cons l L ih =>
    rw [List.foldlM_cons, List.flatten_cons, List.foldlM_append]
    exact congrArg (_ >>= ·) (funext fun s1 => ih s1)

/-- The category loop of `merge_indicators_by_date`, flattened to the list of
(category name, data point) iterations in processing order. -/
def pairs (inds : List (String × List Record)) : List (String × Record) :=
  (inds.map (fun c => c.2.map (fun p => (c.1, p)))).flatten

theorem foldlM_pairs {σ : Type} (g : String → σ → Record → Except MergeError σ)
    (inds : List (String × List Record)) (s0 : σ) :
    inds.foldlM (fun s c => c.2.foldlM (g c.1) s) s0 =
      (pairs inds).foldlM (fun s x => g x.1 s x.2) s0 := by
  induction inds generalizing s0 with
  | nil => rfl
  | cons c inds ih =>
    rw [List.foldlM_cons]
    show (c.2.foldlM (g c.1) s0 >>= fun s1 =>
      inds.foldlM (fun s c => c.2.foldlM (g c.1) s) s1) = _
    have h1 : pairs (c :: inds) = c.2.map (fun p => (c.1, p)) ++ pairs inds := by
      simp [pairs]
    rw [h1, List.foldlM_append, List.foldlM_map]
    exact congrArg (_ >>= ·) (funext fun s1 => ih s1)

/-! ### Pure forms of the two merge loops -/

/-- The date of an iteration pair (equal to the record's `date` field
whenever that field is present). -/
def pdate (x : String × Record) : JValue :=
  getOrNull x.2 "date"

/-- The pure accumulator step of `merge_indicators_by_date`, taken on
iterations whose record has a `date` field. -/
def pstep (acc : Acc) (x : String × Record) : Acc :=
  let d := pdate x
  let acc1 := if accHas acc d then acc else acc ++ [(d, baseline d x.2)]
  accSet acc1 d (fun r => dset r x.1 (getOrNull x.2 x.1))

/-- The pure accumulator step of the `merge_quarterly_fundamental_data`
loop, taken on records that have a `date` field. -/
def qstep (acc : Acc) (item : Record) : Acc :=
  let d := getOrNull item "date"
  let acc1 := if accHas acc d then acc else acc ++ [(d, [])]
  accSet acc1 d (fun r => dupdate r item)

theorem indStep_cases (s : Acc) (x : String × Record) :
    indStep x.1 s x.2 =
      match dget x.2 "date" with
      | none => .error .malformedRecord
      | some _ => .ok (pstep s x) := by
  cases h : dget x.2 "date" with
  | none => simp [indStep, h]
  | some d => simp [indStep, h, pstep, pdate, getOrNull]

theorem fieldStep_cases (s : Acc) (item : Record) :
    fieldStep s item =
      match dget item "date" with
      | none => .error .malformedRecord
      | some _ => .ok (qstep s item) := by
  cases h : dget item "date" with
  | none => simp [fieldStep, h]
  | some d => simp [fieldStep, h, qstep, getOrNull]

/-- `merge_indicators_by_date` computed: either the first record without a
date aborts the run, or the output is the sorted list of records of the pure
accumulator fold over the flattened iteration sequence. -/
theorem merge_indicators_run (inds : List (String × List Record)) :
    merge_indicators_by_date inds =
      if (pairs inds).all (fun x => (dget x.2 "date").isSome)
      then .ok (sortDesc (((pairs inds).foldl pstep []).map Prod.snd))
      else .error .malformedRecord := by
  unfold merge_indicators_by_date
  rw [foldlM_pairs (g := indStep),
    foldlM_guard (fun x => dget x.2 "date") pstep _ indStep_cases]
  by_cases h : (pairs inds).all (fun x => (dget x.2 "date").isSome) <;> simp [h]

/-- The `merge_quarterly_fundamental_data` loop computed: either the first
record without a date aborts the run, or the output is the sorted list of
records of the pure accumulator fold over the concatenated sources. -/
theorem merge_quarterly_run (sources : List (List Record)) :
    merge_quarterly_fundamental_data sources =
      if sources.flatten.all (fun r => (dget r "date").isSome)
      then .ok (sortDesc ((sources.flatten.foldl qstep []).map Prod.snd))
      else .error .malformedRecord := by
  unfold merge_quarterly_fundamental_data
  rw [foldlM_flatten,
    foldlM_guard (fun r => dget r "date") qstep _ fieldStep_cases]
  by_cases h : sources.flatten.all (fun r => (dget r "date").isSome) <;> simp [h]

/-! ### Master characterization of the per-date accumulator

Both pure steps share a single shape: find-or-create the accumulator entry
for the iteration's date, then update that entry.  The fold of such a step
is characterized per date: the entry for `d` is created from the first
iteration dated `d` and then updated by every iteration dated `d`, in
order. -/

section DStep

variable {β : Type} (key : β → JValue) (init : JValue → β → Record) (upd : β → Record → Record)

/-- Find-or-create the entry for `key x`, then update it with `upd x`. -/
def dstep (acc : Acc) (x : β) : Acc :=
  let d := key x
  let acc1 := if accHas acc d then acc else acc ++ [(d, init d x)]
  accSet acc1 d (upd x)

/-- Iterations contributing to date `d`, in processing order. -/
def selFor (d : JValue) (ps : List β) : List β :=
  ps.filter (fun x => decide (key x = d))

/-- The record the accumulator holds for date `d` after all iterations. -/
def genRec (d : JValue) (ps : List β) : Record :=
  match (selFor key d ps).head? with
  | none => []
  | some x0 => (selFor key d ps).foldl (fun r x => upd x r) (init d x0)

theorem selFor_append (d : JValue) (ps : List β) (x : β) :
    selFor key d (ps ++ [x]) =
      selFor key d ps ++ if key x = d then [x] else [] := by
  by_cases h : key x = d <;> simp [selFor, List.filter_append, h]

theorem mem_selFor (x : β) (d : JValue) (ps : List β) :
    x ∈ selFor key d ps ↔ x ∈ ps ∧ key x = d := by
  simp [selFor, List.mem_filter]

theorem mem_map_key_iff (d : JValue) (ps : List β) :
    d ∈ ps.map key ↔ selFor key d ps ≠ [] := by
  rw [List.mem_map]
  constructor
  · rintro ⟨x, hx, rfl⟩ hnil
    simp only [selFor] at hnil
    rw [List.filter_eq_nil_iff] at hnil
    exact hnil x hx (by simp)
  · intro h
    rcases List.exists_mem_of_ne_nil _ h with ⟨x, hx⟩
    simp only [selFor, List.mem_filter, decide_eq_true_eq] at hx
    exact ⟨x, hx.1, hx.2⟩

theorem genRec_append_of_ne (d : JValue) (ps : List β) (x : β) (h : key x ≠ d) :
    genRec key init upd d (ps ++ [x]) = genRec key init upd d ps := by
  simp [genRec, selFor_append, h]

theorem genRec_append_of_nil (d : JValue) (ps : List β) (x : β)
    (hsel : selFor key d ps = []) (h : key x = d) :
    genRec key init upd d (ps ++ [x]) = upd x (init d x) := by
  simp [genRec, selFor_append, h, hsel]

theorem genRec_append_of_ne_nil (d : JValue) (ps : List β) (x : β)
    (hsel : selFor key d ps ≠ []) (h : key x = d) :
    genRec key init upd d (ps ++ [x]) = upd x (genRec key init upd d ps) := by
  rcases (List.exists_cons_of_ne_nil hsel) with ⟨x0, sel, hx0⟩
  simp [genRec, selFor_append, h, hx0, List.foldl_append]

/-- Unfolding equation for `dstep`. -/
theorem dstep_def (acc : Acc) (x : β) :
    dstep key init upd acc x =
      accSet (if accHas acc (key x) then acc else acc ++ [(key x, init (key x) x)])
        (key x) (upd x) := rfl

/-- Master lemma: what the accumulator holds for each date after the fold. -/
theorem accGet_foldl_dstep (ps : List β) (d : JValue) :
    accGet (ps.foldl (dstep key init upd) []) d =
      if d ∈ ps.map key then some (genRec key init upd d ps) else none := by
  induction ps using List.reverseRecOn with
  | nil => simp [accGet]
  | append_singleton ps x ih =>
    rw [List.foldl_append, List.foldl_cons, List.foldl_nil, dstep_def, accGet_accSet]
    by_cases hd : d = key x
    · rw [if_pos hd]
      rw [← hd]
      by_cases hmem : accHas (ps.foldl (dstep key init upd) []) d
      · rw [if_pos (hd ▸ hmem)]
        have hin : d ∈ ps.map key := by
          by_contra hin
          simp only [accHas] at hmem
          rw [ih, if_neg hin] at hmem
          simp at hmem
        rw [ih, if_pos hin,
          if_pos (by simp only [List.map_append, List.mem_append]; exact Or.inl hin),
          genRec_append_of_ne_nil key init upd d ps x
            ((mem_map_key_iff key d ps).1 hin) hd.symm]
        rfl
      · have hin : d ∉ ps.map key := by
          intro hin
          apply hmem
          simp only [accHas]
          rw [ih, if_pos hin]
          rfl
        have hsel : selFor key d ps = [] := by
          by_contra hsel
          exact hin ((mem_map_key_iff key d ps).2 hsel)
        rw [if_neg hmem, accGet_append, ih, if_neg hin]
        simp only [Option.isSome_none, Bool.false_eq_true, if_false]
        rw [show accGet [(d, init d x)] d = some (init d x) by simp [accGet],
          if_pos (by simp only [List.map_append, List.mem_append]; right; simp [hd]),
          genRec_append_of_nil key init upd d ps x hsel hd.symm]
        rfl
    · rw [if_neg hd]
      have hA1 : accGet (if accHas (ps.foldl (dstep key init upd) []) (key x)
          then ps.foldl (dstep key init upd) []
          else ps.foldl (dstep key init upd) [] ++ [(key x, init (key x) x)]) d =
          accGet (ps.foldl (dstep key init upd) []) d := by
        by_cases hmem : accHas (ps.foldl (dstep key init upd) []) (key x)
        · rw [if_pos hmem]
        · rw [if_neg hmem, accGet_append]
          by_cases hs : (accGet (ps.foldl (dstep key init upd) []) d).isSome
          · rw [if_pos hs]
          · have hxd : ¬ key x = d := fun h => hd h.symm
            rw [if_neg hs,
              show accGet [(key x, init (key x) x)] d = none by simp [accGet, hxd]]
            exact (Option.not_isSome_iff_eq_none.1 hs).symm
      rw [hA1, ih]
      have hmm : d ∈ (ps ++ [x]).map key ↔ d ∈ ps.map key := by
        simp [List.map_append, fun h : d = key x => hd h]
      by_cases hin : d ∈ ps.map key
      · rw [if_pos hin, if_pos (hmm.2 hin),
          genRec_append_of_ne key init upd d ps x (fun h => hd h.symm)]
      · rw [if_neg hin, if_neg (fun h => hin (hmm.1 h))]

/-- The accumulator's keys are pairwise distinct (it is a Python dict). -/
theorem nodup_keys_foldl_dstep (ps : List β) :
    ((ps.foldl (dstep key init upd) []).map Prod.fst).Nodup := by
  induction ps using List.reverseRecOn with
  | nil => simp
  | append_singleton ps x ih =>
    rw [List.foldl_append, List.foldl_cons, List.foldl_nil, dstep_def, keys_accSet]
    by_cases hmem : accHas (ps.foldl (dstep key init upd) []) (key x)
    · rw [if_pos hmem]
      exact ih
    · rw [if_neg hmem, List.map_append]
      refine ih.append (by simp) ?_
      intro a ha ha2
      simp only [List.map_cons, List.map_nil, List.mem_singleton] at ha2
      subst ha2
      exact hmem ((accGet_isSome_iff_mem _ _).2 ha)

/-- The accumulator's keys are exactly the dates that occur. -/
theorem mem_keys_foldl_dstep (ps : List β) (d : JValue) :
    d ∈ (ps.foldl (dstep key init upd) []).map Prod.fst ↔ d ∈ ps.map key := by
  rw [← accGet_isSome_iff_mem, accGet_foldl_dstep]
  by_cases hin : d ∈ ps.map key <;> simp [hin]

/-- One accumulator entry per distinct date. -/
theorem length_foldl_dstep (ps : List β) :
    (ps.foldl (dstep key init upd) []).length = (ps.map key).dedup.length := by
  have h1 : (ps.foldl (dstep key init upd) []).length
      = ((ps.foldl (dstep key init upd) []).map Prod.fst).length :=
    (List.length_map _ _).symm
  rw [h1]
  have hperm : List.Perm ((ps.foldl (dstep key init upd) []).map Prod.fst)
      ((ps.map key).dedup) := by
    rw [List.perm_ext_iff_of_nodup (nodup_keys_foldl_dstep key init upd ps)
      (List.nodup_dedup _)]
    intro a
    rw [List.mem_dedup, mem_keys_foldl_dstep]
  exact hperm.length_eq

/-- Every accumulator entry is the characterized record of its date. -/
theorem entry_foldl_dstep (ps : List β) {e : JValue × Record}
    (he : e ∈ ps.foldl (dstep key init upd) []) :
    e.1 ∈ ps.map key ∧ e.2 = genRec key init upd e.1 ps := by
  have h := accGet_of_mem (nodup_keys_foldl_dstep key init upd ps) he
  rw [accGet_foldl_dstep] at h
  by_cases hin : e.1 ∈ ps.map key
  · rw [if_pos hin] at h
    exact ⟨hin, (Option.some.injEq _ _ ▸ h).symm⟩
  · rw [if_neg hin] at h
    cases h

end DStep

/-! ### Per-key contents of the characterized records -/

theorem accGet_mem {acc : Acc} {d : JValue} {r : Record} (h : accGet acc d = some r) :
    (d, r) ∈ acc := by
  induction acc with
  | nil => cases h
  | cons e acc ih =>
    by_cases he : e.1 = d
    · rw [accGet, if_pos he] at h
      cases h
      have hde : (d, e.2) = e := by
        rw [← he]
      rw [hde]
      exact List.mem_cons_self _ _
    · rw [accGet, if_neg he] at h
      exact List.mem_cons_of_mem _ (ih h)

theorem baseline_eq (d : JValue) (p : Record) :
    baseline d p = [("date", d), ("open", getOrNull p "open"), ("high", getOrNull p "high"),
      ("low", getOrNull p "low"), ("close", getOrNull p "close"),
      ("volume", getOrNull p "volume")] := rfl

theorem dget_baseline_date (d : JValue) (p : Record) :
    dget (baseline d p) "date" = some d := rfl

theorem hasKey_baseline (d : JValue) (p : Record) (k : String) :
    hasKey (baseline d p) k = true ↔
      k ∈ (["date", "open", "high", "low", "close", "volume"] : List String) := by
  rw [baseline_eq]
  simp only [hasKey, dget, List.mem_cons, List.not_mem_nil, or_false]
  split_ifs <;> simp_all [eq_comm]

/-- Looking a field up in the baseline envelope: `date` holds the date, the
OHLCV fields hold `p.get(field)`, nothing else is present. -/
theorem dget_baseline (d : JValue) (p : Record) (k : String) :
    dget (baseline d p) k =
      if "date" = k then some d
      else if "open" = k then some (getOrNull p "open")
      else if "high" = k then some (getOrNull p "high")
      else if "low" = k then some (getOrNull p "low")
      else if "close" = k then some (getOrNull p "close")
      else if "volume" = k then some (getOrNull p "volume")
      else none := by
  rw [baseline_eq]
  simp only [dget]

/-- Looking a key up after a sequence of per-category single-field writes:
the last write to that key wins; a key never written keeps its old value. -/
theorem dget_foldl_dset (l : List (String × Record)) (r0 : Record) (k : String) :
    dget (l.foldl (fun r x => dset r x.1 (getOrNull x.2 x.1)) r0) k =
      match (l.filter (fun x => decide (x.1 = k))).getLast? with
      | some x => some (getOrNull x.2 k)
      | none => dget r0 k := by
  induction l using List.reverseRecOn with
  | nil => simp
  | append_singleton l x ih =>
    rw [List.foldl_append, List.foldl_cons, List.foldl_nil, dget_dset, List.filter_append]
    by_cases h : x.1 = k
    · rw [if_pos h]
      have hf : List.filter (fun x => decide (x.1 = k)) [x] = [x] := by simp [h]
      rw [hf, List.getLast?_append]
      simp [h]
    · rw [if_neg h]
      have hf : List.filter (fun x => decide (x.1 = k)) [x] = [] := by simp [h]
      rw [hf, List.append_nil, ih]

/-- Which keys are present after a sequence of per-category single-field
writes. -/
theorem hasKey_foldl_dset (l : List (String × Record)) (r0 : Record) (k : String) :
    hasKey (l.foldl (fun r x => dset r x.1 (getOrNull x.2 x.1)) r0) k =
      (hasKey r0 k || l.any (fun x => decide (x.1 = k))) := by
  induction l using List.reverseRecOn with
  | nil => simp
  | append_singleton l x ih =>
    rw [List.foldl_append, List.foldl_cons, List.foldl_nil, hasKey_dset, ih]
    by_cases h : x.1 = k <;>
      simp [h, Bool.or_comm, Bool.or_left_comm, Bool.or_assoc]

/-- Looking a key up after folding whole-record updates: the value comes from
the last updating record that contains the key. -/
theorem dget_foldl_dupdate (rs : List Record) (r0 : Record) (k : String)
    (hwf : ∀ r ∈ rs, (r.map Prod.fst).Nodup) :
    dget (rs.foldl (fun r item => dupdate r item) r0) k =
      match rs.reverse.findSome? (fun r => dget r k) with
      | some v => some v
      | none => dget r0 k := by
  induction rs using List.reverseRecOn with
  | nil => simp
  | append_singleton rs x ih =>
    rw [List.foldl_append, List.foldl_cons, List.foldl_nil,
      dget_dupdate _ _ _ (hwf x (by simp)), List.reverse_append]
    simp only [List.reverse_cons, List.reverse_nil, List.nil_append, List.singleton_append,
      List.findSome?_cons]
    by_cases h : hasKey x k
    · rw [if_pos h]
      rcases hasKey_iff.1 h with ⟨v, hv⟩
      rw [hv]
    · rw [if_neg h]
      have hv : dget x k = none := by
        rcases hh : dget x k with _ | v
        · rfl
        · exact absurd (hasKey_iff.2 ⟨v, hh⟩) h
      rw [hv, ih (fun r hr => hwf r (List.mem_append_left _ hr))]

/-! ### Sorting lemmas and step instantiations -/

theorem sortDesc_perm (rs : List Record) : List.Perm (sortDesc rs) rs :=
  List.perm_insertionSort dateGE rs

theorem sortDesc_sorted (rs : List Record) : List.Sorted dateGE (sortDesc rs) :=
  List.sorted_insertionSort dateGE rs

theorem mem_sortDesc {rs : List Record} {m : Record} : m ∈ sortDesc rs ↔ m ∈ rs :=
  (sortDesc_perm rs).mem_iff

theorem pstep_eq_dstep :
    pstep = dstep pdate (fun d x => baseline d x.2)
      (fun x r => dset r x.1 (getOrNull x.2 x.1)) := rfl

theorem qstep_eq_dstep :
    qstep = dstep (fun item => getOrNull item "date") (fun _ _ => ([] : Record))
      (fun item r => dupdate r item) := rfl

/-! ### Statement vocabulary -/

theorem mem_pairs {inds : List (String × List Record)} {x : String × Record} :
    x ∈ pairs inds ↔ ∃ c ∈ inds, c.1 = x.1 ∧ x.2 ∈ c.2 := by
  simp only [pairs, List.mem_flatten, List.mem_map]
  constructor
  · rintro ⟨l, ⟨c, hc, rfl⟩, hx⟩
    rcases List.mem_map.1 hx with ⟨p, hp, rfl⟩
    exact ⟨c, hc, rfl, hp⟩
  · rintro ⟨c, hc, h1, h2⟩
    refine ⟨c.2.map (fun p => (c.1, p)), ⟨c, hc, rfl⟩, ?_⟩
    rcases x with ⟨nm, r⟩
    cases h1
    exact List.mem_map_of_mem _ h2

theorem getOrNull_of_dget {r : Record} {k : String} {v : JValue} (h : dget r k = some v) :
    getOrNull r k = v := by
  simp [getOrNull, h]

theorem dget_of_isSome {r : Record} {k : String} (h : (dget r k).isSome = true) :
    dget r k = some (getOrNull r k) := by
  rcases Option.isSome_iff_exists.1 h with ⟨v, hv⟩
  rw [hv, getOrNull_of_dget hv]

theorem pairs_all_dates (inds : List (String × List Record)) :
    ((pairs inds).all (fun x => (dget x.2 "date").isSome)) = true ↔
      ∀ c ∈ inds, ∀ r ∈ c.2, (dget r "date").isSome = true := by
  rw [List.all_eq_true]
  constructor
  · intro h c hc r hr
    exact h (c.1, r) (mem_pairs.2 ⟨c, hc, rfl, hr⟩)
  · rintro h x hx
    rcases mem_pairs.1 hx with ⟨c, hc, h1, h2⟩
    exact h c hc x.2 h2

/-- A date `d` occurs in the indicator input. -/
def dateOccurs (inds : List (String × List Record)) (d : JValue) : Prop :=
  ∃ c ∈ inds, ∃ r ∈ c.2, dget r "date" = some d

instance (inds : List (String × List Record)) (d : JValue) :
    Decidable (dateOccurs inds d) :=
  decidable_of_iff (∃ c ∈ inds, ∃ r ∈ c.2, dget r "date" = some d) Iff.rfl

theorem dateOccurs_iff_mem (inds : List (String × List Record)) (d : JValue)
    (hdate : ∀ c ∈ inds, ∀ r ∈ c.2, (dget r "date").isSome = true) :
    dateOccurs inds d ↔ d ∈ (pairs inds).map pdate := by
  constructor
  · rintro ⟨c, hc, r, hr, hd⟩
    exact List.mem_map.2 ⟨(c.1, r), mem_pairs.2 ⟨c, hc, rfl, hr⟩,
      by simp [pdate, getOrNull_of_dget hd]⟩
  · intro h
    rcases List.mem_map.1 h with ⟨x, hx, rfl⟩
    rcases mem_pairs.1 hx with ⟨c, hc, h1, h2⟩
    refine ⟨c, hc, x.2, h2, ?_⟩
    rw [dget_of_isSome (hdate c hc x.2 h2)]
    rfl

/-- The first record observed for date `d`, in category-processing order. -/
def firstRecordFor (inds : List (String × List Record)) (d : JValue) : Option Record :=
  ((selFor pdate d (pairs inds)).head?).map Prod.snd

/-- The last record with date `d` in a single category's list. -/
def lastRecordFor (rs : List Record) (d : JValue) : Option Record :=
  (rs.filter (fun r => decide (getOrNull r "date" = d))).getLast?

/-- `merge_indicators_by_date` on all-dated input: the sorted pure fold. -/
theorem merge_indicators_ok (inds : List (String × List Record))
    (hdate : ∀ c ∈ inds, ∀ r ∈ c.2, (dget r "date").isSome = true) :
    merge_indicators_by_date inds =
      .ok (sortDesc (((pairs inds).foldl pstep []).map Prod.snd)) := by
  rw [merge_indicators_run, if_pos ((pairs_all_dates inds).2 hdate)]

/-- The quarterly merge on all-dated input: the sorted pure fold. -/
theorem merge_quarterly_ok (sources : List (List Record))
    (hdate : ∀ src ∈ sources, ∀ r ∈ src, (dget r "date").isSome = true) :
    merge_quarterly_fundamental_data sources =
      .ok (sortDesc ((sources.flatten.foldl qstep []).map Prod.snd)) := by
  rw [merge_quarterly_run, if_pos]
  rw [List.all_eq_true]
  intro r hr
  rcases List.mem_flatten.1 hr with ⟨src, hsrc, hrs⟩
  exact hdate src hsrc r hrs

/-! ### Contents of the indicator merge's per-date records -/

/-- The baseline-creating initializer of the indicator merge. -/
def indInit : JValue → (String × Record) → Record := fun d x => baseline d x.2

/-- The one-indicator-field writer of the indicator merge. -/
def indUpd : (String × Record) → Record → Record :=
  fun x r => dset r x.1 (getOrNull x.2 x.1)

/-- The merged record for date `d` after the indicator loop. -/
def recFor (d : JValue) (ps : List (String × Record)) : Record :=
  genRec pdate indInit indUpd d ps

theorem pstep_eq_dstep_ind : pstep = dstep pdate indInit indUpd := rfl

theorem accGet_runInd (inds : List (String × List Record)) (d : JValue) :
    accGet ((pairs inds).foldl pstep []) d =
      if d ∈ (pairs inds).map pdate then some (recFor d (pairs inds)) else none := by
  rw [pstep_eq_dstep_ind]
  exact accGet_foldl_dstep pdate indInit indUpd (pairs inds) d

theorem dget_recFor (ps : List (String × Record)) (d : JValue) (x0 : String × Record)
    (hhead : (selFor pdate d ps).head? = some x0) (k : String) :
    dget (recFor d ps) k =
      match ((selFor pdate d ps).filter (fun x => decide (x.1 = k))).getLast? with
      | some x => some (getOrNull x.2 k)
      | none => dget (baseline d x0.2) k := by
  rw [recFor, genRec, hhead]
  exact dget_foldl_dset _ _ _

theorem hasKey_recFor (ps : List (String × Record)) (d : JValue) (x0 : String × Record)
    (hhead : (selFor pdate d ps).head? = some x0) (k : String) :
    hasKey (recFor d ps) k = true ↔
      k ∈ (["date", "open", "high", "low", "close", "volume"] : List String) ∨
        ∃ x ∈ selFor pdate d ps, x.1 = k := by
  rw [recFor, genRec, hhead]
  simp only [indInit, indUpd]
  rw [hasKey_foldl_dset, Bool.or_eq_true, hasKey_baseline, List.any_eq_true]
  simp only [decide_eq_true_eq]

/-- Every record held by the indicator accumulator carries its own date. -/
theorem dget_recFor_date (ps : List (String × Record)) (d : JValue)
    (hd : d ∈ ps.map pdate) :
    dget (recFor d ps) "date" = some d := by
  have hne : selFor pdate d ps ≠ [] := (mem_map_key_iff pdate d ps).1 hd
  rcases List.exists_cons_of_ne_nil hne with ⟨x0, sel, hx0⟩
  have hhead : (selFor pdate d ps).head? = some x0 := by rw [hx0]; rfl
  rw [dget_recFor ps d x0 hhead]
  rcases hlast : ((selFor pdate d ps).filter (fun x => decide (x.1 = "date"))).getLast?
    with _ | x
  · rw [hlast]
    exact dget_baseline_date d x0.2
  · rw [hlast]
    have hx : x ∈ selFor pdate d ps :=
      (List.mem_filter.1 (List.mem_of_getLast?_eq_some hlast)).1
    have hpd : pdate x = d := ((mem_selFor pdate x d ps).1 hx).2
    show some (getOrNull x.2 "date") = some d
    rw [show getOrNull x.2 "date" = pdate x from rfl, hpd]

theorem runInd_entry_date (inds : List (String × List Record))
    {e : JValue × Record} (he : e ∈ (pairs inds).foldl pstep []) :
    dget e.2 "date" = some e.1 := by
  rw [pstep_eq_dstep_ind] at he
  rcases entry_foldl_dstep pdate indInit indUpd (pairs inds) he with ⟨hin, heq⟩
  rw [heq]
  exact dget_recFor_date (pairs inds) e.1 hin

/-! ### Claim theorems -/

/-- C3: for every input to `merge_indicators_by_date` in which every record
has a `date` field, the output contains exactly one record per distinct date
value occurring across all input categories: the output length equals the
number of distinct dates, every input date appears, and no date appears
twice. -/
theorem merge_indicators_one_record_per_date
    (inds : List (String × List Record))
    (hdate : ∀ c ∈ inds, ∀ r ∈ c.2, (dget r "date").isSome = true) :
    ∃ out, merge_indicators_by_date inds = .ok out ∧
      out.length = ((pairs inds).map pdate).dedup.length ∧
      (∀ d, dateOccurs inds d ↔ ∃ m ∈ out, dget m "date" = some d) ∧
      (out.map (fun m => dget m "date")).Nodup := by
  refine ⟨_, merge_indicators_ok inds hdate, ?_, ?_, ?_⟩
  · rw [(sortDesc_perm _).length_eq, List.length_map, pstep_eq_dstep_ind]
    exact length_foldl_dstep pdate indInit indUpd (pairs inds)
  · intro d
    constructor
    · intro hocc
      have hin : d ∈ (pairs inds).map pdate := (dateOccurs_iff_mem inds d hdate).1 hocc
      have hacc : accGet ((pairs inds).foldl pstep []) d = some (recFor d (pairs inds)) := by
        rw [accGet_runInd, if_pos hin]
      refine ⟨recFor d (pairs inds), ?_, dget_recFor_date _ _ hin⟩
      rw [mem_sortDesc]
      exact List.mem_map_of_mem Prod.snd (accGet_mem hacc)
    · rintro ⟨m, hm, hdm⟩
      rw [mem_sortDesc] at hm
      rcases List.mem_map.1 hm with ⟨e, he, rfl⟩
      have hde := runInd_entry_date inds he
      rw [hde] at hdm
      have he1 : e.1 = d := Option.some.inj hdm
      rw [pstep_eq_dstep_ind] at he
      have hin := (entry_foldl_dstep pdate indInit indUpd (pairs inds) he).1
      rw [he1] at hin
      exact (dateOccurs_iff_mem inds d hdate).2 hin
  · have hperm : List.Perm
        ((sortDesc (((pairs inds).foldl pstep []).map Prod.snd)).map (fun m => dget m "date"))
        ((((pairs inds).foldl pstep []).map Prod.snd).map (fun m => dget m "date")) :=
      (sortDesc_perm _).map _
    rw [hperm.nodup_iff, List.map_map]
    have hcong : (((pairs inds).foldl pstep []).map ((fun m => dget m "date") ∘ Prod.snd))
        = ((pairs inds).foldl pstep []).map (fun e => some e.1) :=
      List.map_congr_left (fun e he => runInd_entry_date inds he)
    rw [hcong,
      show ((pairs inds).foldl pstep []).map (fun e => some e.1)
        = (((pairs inds).foldl pstep []).map Prod.fst).map some by rw [List.map_map]; rfl]
    refine List.Nodup.map (Option.some_injective _) ?_
    rw [pstep_eq_dstep_ind]
    exact nodup_keys_foldl_dstep pdate indInit indUpd (pairs inds)

/-- A sample two-category indicator input (the spec's scenario). -/
def sampleInds : List (String × List Record) :=
  [("sma", [[("date", .jstr "2024-01-02"), ("sma", .jnum (1502/10)), ("close", .jnum 149)]]),
   ("ema", [[("date", .jstr "2024-01-02"), ("ema", .jnum 151), ("close", .jnum 149)]])]

/-- Witness for C3 at the spec's two-category scenario. -/
theorem merge_indicators_one_record_per_date_witness :
    (∀ c ∈ sampleInds, ∀ r ∈ c.2, (dget r "date").isSome = true) ∧
      ∃ out, merge_indicators_by_date sampleInds = .ok out ∧
        out.length = ((pairs sampleInds).map pdate).dedup.length ∧
        (∀ d, dateOccurs sampleInds d ↔ ∃ m ∈ out, dget m "date" = some d) ∧
        (out.map (fun m => dget m "date")).Nodup :=
  ⟨by decide, merge_indicators_one_record_per_date sampleInds (by decide)⟩

theorem pairs_append (u v : List (String × List Record)) :
    pairs (u ++ v) = pairs u ++ pairs v := by
  simp [pairs]

theorem pairs_cons (c : String × List Record) (v : List (String × List Record)) :
    pairs (c :: v) = c.2.map (fun p => (c.1, p)) ++ pairs v := by
  simp [pairs]

theorem name_mem_of_mem_pairs {u : List (String × List Record)} {x : String × Record}
    (hx : x ∈ pairs u) : x.1 ∈ u.map Prod.fst := by
  rcases mem_pairs.1 hx with ⟨c, hc, h1, _⟩
  exact h1 ▸ List.mem_map_of_mem Prod.fst hc

/-- With pairwise-distinct category names, the iterations dated `d` that are
named after category `c` are exactly `c`'s own records dated `d`. -/
theorem selFor_pairs_name (inds : List (String × List Record))
    (c : String × List Record) (hc : c ∈ inds)
    (hnodup : (inds.map Prod.fst).Nodup) (d : JValue) :
    (selFor pdate d (pairs inds)).filter (fun x => decide (x.1 = c.1)) =
      (c.2.filter (fun r => decide (getOrNull r "date" = d))).map (fun r => (c.1, r)) := by
  rw [selFor, List.filter_filter]
  rcases List.append_of_mem hc with ⟨l1, l2, rfl⟩
  have hn : c.1 ∉ l1.map Prod.fst ∧ c.1 ∉ l2.map Prod.fst := by
    rw [List.map_append, List.nodup_append] at hnodup
    refine ⟨fun hmem => ?_, ?_⟩
    · exact hnodup.2.2 hmem (by simp)
    · have := hnodup.2.1
      rw [List.map_cons, List.nodup_cons] at this
      exact this.1
  rw [pairs_append, pairs_cons, List.filter_append, List.filter_append]
  have h1 : (pairs l1).filter (fun x => decide (x.1 = c.1) && decide (pdate x = d)) = [] := by
    rw [List.filter_eq_nil_iff]
    intro x hx
    simp only [Bool.and_eq_true, decide_eq_true_eq, not_and]
    intro hxc _
    exact hn.1 (hxc ▸ name_mem_of_mem_pairs hx)
  have h2 : (pairs l2).filter (fun x => decide (x.1 = c.1) && decide (pdate x = d)) = [] := by
    rw [List.filter_eq_nil_iff]
    intro x hx
    simp only [Bool.and_eq_true, decide_eq_true_eq, not_and]
    intro hxc _
    exact hn.2 (hxc ▸ name_mem_of_mem_pairs hx)
  rw [h1, h2, List.nil_append, List.append_nil, List.filter_map]
  refine congrArg (List.map _) (List.filter_congr ?_)
  intro r _
  show (decide ((c.1, r).1 = c.1) && decide (pdate (c.1, r) = d))
      = decide (getOrNull r "date" = d)
  simp [pdate]

theorem selFor_name_iff (inds : List (String × List Record)) (d : JValue) (k : String)
    (hdate : ∀ c ∈ inds, ∀ r ∈ c.2, (dget r "date").isSome = true) :
    (∃ x ∈ selFor pdate d (pairs inds), x.1 = k) ↔
      ∃ c ∈ inds, c.1 = k ∧ ∃ r ∈ c.2, dget r "date" = some d := by
  constructor
  · rintro ⟨x, hx, rfl⟩
    rcases (mem_selFor pdate x d (pairs inds)).1 hx with ⟨hxp, hxd⟩
    rcases mem_pairs.1 hxp with ⟨c, hc, hc1, hc2⟩
    refine ⟨c, hc, hc1, x.2, hc2, ?_⟩
    rw [dget_of_isSome (hdate c hc x.2 hc2),
      show getOrNull x.2 "date" = pdate x from rfl, hxd]
  · rintro ⟨c, hc, rfl, r, hr, hrd⟩
    refine ⟨(c.1, r), ?_, rfl⟩
    refine (mem_selFor pdate _ d (pairs inds)).2 ⟨mem_pairs.2 ⟨c, hc, rfl, hr⟩, ?_⟩
    show getOrNull r "date" = d
    exact getOrNull_of_dget hrd

/-- Master description of the merged record for one date of
`merge_indicators_by_date`. -/
theorem merged_record_master
    (inds : List (String × List Record))
    (hdate : ∀ c ∈ inds, ∀ r ∈ c.2, (dget r "date").isSome = true)
    (hnames : ∀ c ∈ inds, c.1 ∉ (["open", "high", "low", "close", "volume"] : List String))
    (hnodup : (inds.map Prod.fst).Nodup)
    (d : JValue) (hd : dateOccurs inds d) :
    ∃ out m, merge_indicators_by_date inds = .ok out ∧ m ∈ out ∧
      (∀ m2 ∈ out, dget m2 "date" = some d → m2 = m) ∧
      dget m "date" = some d ∧
      (∀ k, hasKey m k = true ↔
        (k ∈ (["date", "open", "high", "low", "close", "volume"] : List String) ∨
          ∃ c ∈ inds, c.1 = k ∧ ∃ r ∈ c.2, dget r "date" = some d)) ∧
      (∀ p, firstRecordFor inds d = some p →
        ∀ k ∈ (["open", "high", "low", "close", "volume"] : List String),
          dget m k = some (getOrNull p k)) ∧
      (∀ c ∈ inds, ∀ r, lastRecordFor c.2 d = some r →
        dget m c.1 = some (getOrNull r c.1)) := by
  have hin : d ∈ (pairs inds).map pdate := (dateOccurs_iff_mem inds d hdate).1 hd
  have hne : selFor pdate d (pairs inds) ≠ [] := (mem_map_key_iff pdate d (pairs inds)).1 hin
  rcases List.exists_cons_of_ne_nil hne with ⟨x0, sel, hx0⟩
  have hhead : (selFor pdate d (pairs inds)).head? = some x0 := by rw [hx0]; rfl
  refine ⟨_, recFor d (pairs inds), merge_indicators_ok inds hdate, ?_, ?_, ?_, ?_, ?_, ?_⟩
  · rw [mem_sortDesc]
    have hacc : accGet ((pairs inds).foldl pstep []) d = some (recFor d (pairs inds)) := by
      rw [accGet_runInd, if_pos hin]
    exact List.mem_map_of_mem Prod.snd (accGet_mem hacc)
  · intro m2 hm2 hdm2
    rw [mem_sortDesc] at hm2
    rcases List.mem_map.1 hm2 with ⟨e, he, rfl⟩
    have hde := runInd_entry_date inds he
    rw [hde] at hdm2
    have he1 : e.1 = d := Option.some.inj hdm2
    rw [pstep_eq_dstep_ind] at he
    have heq := (entry_foldl_dstep pdate indInit indUpd (pairs inds) he).2
    rw [he1] at heq
    exact heq
  · exact dget_recFor_date (pairs inds) d hin
  · intro k
    rw [hasKey_recFor (pairs inds) d x0 hhead k]
    exact or_congr_right (selFor_name_iff inds d k hdate)
  · intro p hp k hk
    have hpeq : p = x0.2 := by
      rw [firstRecordFor, hhead] at hp
      exact (Option.some.inj hp).symm
    have hfil : ((selFor pdate d (pairs inds)).filter (fun x => decide (x.1 = k))) = [] := by
      rw [List.filter_eq_nil_iff]
      intro x hx
      simp only [decide_eq_true_eq]
      intro hxk
      rcases mem_pairs.1 ((mem_selFor pdate x d (pairs inds)).1 hx).1 with ⟨c, hc, hc1, _⟩
      exact hnames c hc (by rw [hc1, hxk]; exact hk)
    rw [dget_recFor (pairs inds) d x0 hhead k, hfil, hpeq]
    show dget (baseline d x0.2) k = some (getOrNull x0.2 k)
    simp only [List.mem_cons, List.not_mem_nil, or_false] at hk
    rcases hk with rfl | rfl | rfl | rfl | rfl <;> rfl
  · intro c hc r hlastr
    rw [dget_recFor (pairs inds) d x0 hhead c.1,
      selFor_pairs_name inds c hc hnodup d, List.getLast?_map,
      show (c.2.filter (fun r => decide (getOrNull r "date" = d))).getLast? = some r
        from hlastr]
    rfl

/-- C1 (amended): for every input mapping of category names to record lists
in which every record has a `date` field and no category is named `open`,
`high`, `low`, `close` or `volume`, and for every date `d` occurring in the
input, the unique output record for `d` has exactly the keys
`{date, open, high, low, close, volume}` united with the category names whose
list contains a record dated `d`; the OHLCV values are copied from the first
record observed for `d` in category-processing order (null when absent); and
for each category `C` containing a record dated `d`, the field named `C`
holds the value of the last such record's field named `C` (null when absent).
No other field of any input record appears in the output. -/
theorem merge_indicators_record_fields
    (inds : List (String × List Record))
    (hdate : ∀ c ∈ inds, ∀ r ∈ c.2, (dget r "date").isSome = true)
    (hnames : ∀ c ∈ inds, c.1 ∉ (["open", "high", "low", "close", "volume"] : List String))
    (hnodup : (inds.map Prod.fst).Nodup)
    (d : JValue) (hd : dateOccurs inds d) :
    ∃ out m, merge_indicators_by_date inds = .ok out ∧ m ∈ out ∧
      (∀ m2 ∈ out, dget m2 "date" = some d → m2 = m) ∧
      dget m "date" = some d ∧
      (∀ k, hasKey m k = true ↔
        (k ∈ (["date", "open", "high", "low", "close", "volume"] : List String) ∨
          ∃ c ∈ inds, c.1 = k ∧ ∃ r ∈ c.2, dget r "date" = some d)) ∧
      (∀ p, firstRecordFor inds d = some p →
        ∀ k ∈ (["open", "high", "low", "close", "volume"] : List String),
          dget m k = some (getOrNull p k)) ∧
      (∀ c ∈ inds, ∀ r, lastRecordFor c.2 d = some r →
        dget m c.1 = some (getOrNull r c.1)) :=
  merged_record_master inds hdate hnames hnodup d hd

/-- Witness for C1 at the spec's two-category scenario. -/
theorem merge_indicators_record_fields_witness :
    ((∀ c ∈ sampleInds, ∀ r ∈ c.2, (dget r "date").isSome = true) ∧
      (∀ c ∈ sampleInds,
        c.1 ∉ (["open", "high", "low", "close", "volume"] : List String)) ∧
      (sampleInds.map Prod.fst).Nodup ∧
      dateOccurs sampleInds (.jstr "2024-01-02")) ∧
    (∃ out m, merge_indicators_by_date sampleInds = .ok out ∧ m ∈ out ∧
      (∀ m2 ∈ out, dget m2 "date" = some (.jstr "2024-01-02") → m2 = m) ∧
      dget m "date" = some (.jstr "2024-01-02") ∧
      (∀ k, hasKey m k = true ↔
        (k ∈ (["date", "open", "high", "low", "close", "volume"] : List String) ∨
          ∃ c ∈ sampleInds, c.1 = k ∧
            ∃ r ∈ c.2, dget r "date" = some (.jstr "2024-01-02"))) ∧
      (∀ p, firstRecordFor sampleInds (.jstr "2024-01-02") = some p →
        ∀ k ∈ (["open", "high", "low", "close", "volume"] : List String),
          dget m k = some (getOrNull p k)) ∧
      (∀ c ∈ sampleInds, ∀ r, lastRecordFor c.2 (.jstr "2024-01-02") = some r →
        dget m c.1 = some (getOrNull r c.1))) :=
  ⟨⟨by decide, by decide, by decide, by decide⟩,
    merge_indicators_record_fields sampleInds (by decide) (by decide) (by decide)
      (.jstr "2024-01-02") (by decide)⟩

/-- Input refuting C1 as literally stated: a category named `close`. -/
def c1CeInds : List (String × List Record) :=
  [("sma", [[("date", .jstr "2024-01-02"), ("close", .jnum 1)]]),
   ("close", [[("date", .jstr "2024-01-02"), ("close", .jnum 2)]])]

/-- The output record the program produces on `c1CeInds`. -/
def c1CeOut : Record :=
  [("date", .jstr "2024-01-02"), ("open", .jnull), ("high", .jnull), ("low", .jnull),
   ("close", .jnum 2), ("volume", .jnull), ("sma", .jnull)]

/-- C1 counterexample: every record of `c1CeInds` has a `date` field, yet the
output record's `close` is not copied from the first record observed for the
date (whose `close` is 1) — the category named `close` overwrites it with its
own indicator value 2.  The claim's baseline-copy clause fails as stated. -/
theorem merge_indicators_record_fields_counterexample :
    (∀ c ∈ c1CeInds, ∀ r ∈ c.2, (dget r "date").isSome = true) ∧
    merge_indicators_by_date c1CeInds = .ok [c1CeOut] ∧
    firstRecordFor c1CeInds (.jstr "2024-01-02")
      = some [("date", .jstr "2024-01-02"), ("close", .jnum 1)] ∧
    getOrNull [("date", JValue.jstr "2024-01-02"), ("close", JValue.jnum 1)] "close"
      = .jnum 1 ∧
    dget c1CeOut "close" = some (.jnum 2) ∧
    dget c1CeOut "close" ≠
      some (getOrNull [("date", JValue.jstr "2024-01-02"), ("close", JValue.jnum 1)]
        "close") := by
  decide

/-- C7 (amended): for every input in which two records of the same category
share an identical date (every record dated, no category named
`open`/`high`/`low`/`close`/`volume`), the output record for that date keeps
the first-seen record's baseline envelope while the category-named field
holds the value from the last duplicate record processed — the later
duplicate contributes nothing except overwriting that one indicator field. -/
theorem merge_indicators_duplicate_date
    (inds : List (String × List Record))
    (hdate : ∀ c ∈ inds, ∀ r ∈ c.2, (dget r "date").isSome = true)
    (hnames : ∀ c ∈ inds, c.1 ∉ (["open", "high", "low", "close", "volume"] : List String))
    (hnodup : (inds.map Prod.fst).Nodup)
    (c : String × List Record) (hc : c ∈ inds) (d : JValue)
    (hdup : 2 ≤ (c.2.filter (fun r => decide (getOrNull r "date" = d))).length) :
    ∃ out m, merge_indicators_by_date inds = .ok out ∧ m ∈ out ∧
      dget m "date" = some d ∧
      (∀ k, hasKey m k = true ↔
        (k ∈ (["date", "open", "high", "low", "close", "volume"] : List String) ∨
          ∃ c2 ∈ inds, c2.1 = k ∧ ∃ r ∈ c2.2, dget r "date" = some d)) ∧
      (∀ p, firstRecordFor inds d = some p →
        ∀ k ∈ (["open", "high", "low", "close", "volume"] : List String),
          dget m k = some (getOrNull p k)) ∧
      (∀ r, lastRecordFor c.2 d = some r → dget m c.1 = some (getOrNull r c.1)) := by
  have hd : dateOccurs inds d := by
    have hne : (c.2.filter (fun r => decide (getOrNull r "date" = d))) ≠ [] := by
      intro hnil
      rw [hnil] at hdup
      exact absurd hdup (by simp)
    rcases List.exists_mem_of_ne_nil _ hne with ⟨r, hr⟩
    rcases List.mem_filter.1 hr with ⟨hrc, hrd⟩
    refine ⟨c, hc, r, hrc, ?_⟩
    rw [dget_of_isSome (hdate c hc r hrc), of_decide_eq_true hrd]
  rcases merged_record_master inds hdate hnames hnodup d hd with
    ⟨out, m, h1, h2, _, h4, h5, h6, h7⟩
  exact ⟨out, m, h1, h2, h4, h5, h6, fun r hr => h7 c hc r hr⟩

/-- A category with two records sharing one date. -/
def sampleDup : List (String × List Record) :=
  [("sma", [[("date", .jstr "2024-01-02"), ("sma", .jnum 1)],
            [("date", .jstr "2024-01-02"), ("sma", .jnum 2)]])]

/-- Witness for C7 at a duplicate-date input. -/
theorem merge_indicators_duplicate_date_witness :
    ((∀ c ∈ sampleDup, ∀ r ∈ c.2, (dget r "date").isSome = true) ∧
      (∀ c ∈ sampleDup,
        c.1 ∉ (["open", "high", "low", "close", "volume"] : List String)) ∧
      (sampleDup.map Prod.fst).Nodup ∧
      ("sma", [[("date", JValue.jstr "2024-01-02"), ("sma", JValue.jnum 1)],
        [("date", JValue.jstr "2024-01-02"), ("sma", JValue.jnum 2)]]) ∈ sampleDup ∧
      2 ≤ (([[("date", JValue.jstr "2024-01-02"), ("sma", JValue.jnum 1)],
          [("date", JValue.jstr "2024-01-02"), ("sma", JValue.jnum 2)]] :
            List Record).filter
          (fun r => decide (getOrNull r "date" = JValue.jstr "2024-01-02"))).length) ∧
    (∃ out m, merge_indicators_by_date sampleDup = .ok out ∧ m ∈ out ∧
      dget m "date" = some (.jstr "2024-01-02") ∧
      (∀ k, hasKey m k = true ↔
        (k ∈ (["date", "open", "high", "low", "close", "volume"] : List String) ∨
          ∃ c2 ∈ sampleDup, c2.1 = k ∧
            ∃ r ∈ c2.2, dget r "date" = some (.jstr "2024-01-02"))) ∧
      (∀ p, firstRecordFor sampleDup (.jstr "2024-01-02") = some p →
        ∀ k ∈ (["open", "high", "low", "close", "volume"] : List String),
          dget m k = some (getOrNull p k)) ∧
      (∀ r, lastRecordFor [[("date", JValue.jstr "2024-01-02"), ("sma", JValue.jnum 1)],
          [("date", JValue.jstr "2024-01-02"), ("sma", JValue.jnum 2)]]
            (.jstr "2024-01-02") = some r →
        dget m "sma" = some (getOrNull r "sma"))) :=
  ⟨⟨by decide, by decide, by decide, by decide, by decide⟩,
    merge_indicators_duplicate_date sampleDup (by decide) (by decide) (by decide)
      ("sma", [[("date", JValue.jstr "2024-01-02"), ("sma", JValue.jnum 1)],
        [("date", JValue.jstr "2024-01-02"), ("sma", JValue.jnum 2)]])
      (by decide) (.jstr "2024-01-02") (by decide)⟩

/-- Input refuting C7 as literally stated: duplicate-dated records in a
category named `close`. -/
def c7CeInds : List (String × List Record) :=
  [("close", [[("date", .jstr "2024-01-02"), ("close", .jnum 1)],
              [("date", .jstr "2024-01-02"), ("close", .jnum 2)]])]

/-- The output record the program produces on `c7CeInds`. -/
def c7CeOut : Record :=
  [("date", .jstr "2024-01-02"), ("open", .jnull), ("high", .jnull), ("low", .jnull),
   ("close", .jnum 2), ("volume", .jnull)]

/-- C7 counterexample: with the duplicate-dated category named `close`, the
output record does not keep the first-seen record's baseline envelope — its
`close` is overwritten by the later duplicate's indicator value, so the
claim's `keeps only the first-seen baseline envelope` clause fails as
stated. -/
theorem merge_indicators_duplicate_date_counterexample :
    (∀ c ∈ c7CeInds, ∀ r ∈ c.2, (dget r "date").isSome = true) ∧
    merge_indicators_by_date c7CeInds = .ok [c7CeOut] ∧
    firstRecordFor c7CeInds (.jstr "2024-01-02")
      = some [("date", .jstr "2024-01-02"), ("close", .jnum 1)] ∧
    getOrNull [("date", JValue.jstr "2024-01-02"), ("close", JValue.jnum 1)] "close"
      = .jnum 1 ∧
    dget c7CeOut "close" = some (.jnum 2) ∧
    dget c7CeOut "close" ≠
      some (getOrNull [("date", JValue.jstr "2024-01-02"), ("close", JValue.jnum 1)]
        "close") := by
  decide

/-! ### String-typed dates and sortedness -/

/-- The record's `date` field is present and is a string (in the program,
an ISO date string). -/
def isStrDate (r : Record) : Bool :=
  match dget r "date" with
  | some (.jstr _) => true
  | _ => false

theorem isStrDate_iff {r : Record} :
    isStrDate r = true ↔ ∃ s, dget r "date" = some (.jstr s) := by
  rcases h : dget r "date" with _ | v
  · simp [isStrDate, h]
  · cases v <;> simp [isStrDate, h]

theorem isSome_of_isStrDate {r : Record} (h : isStrDate r = true) :
    (dget r "date").isSome = true := by
  rcases isStrDate_iff.1 h with ⟨s, hs⟩
  rw [hs]
  rfl

/-- The string payload of a string value. -/
def strOf : JValue → String
  | .jstr s => s
  | _ => ""

/-- On records whose dates are strings, the sorted output's dates form a
non-increasing list of strings under the string order. -/
theorem sortDesc_string_dates (rs : List Record)
    (hstr : ∀ m ∈ rs, ∃ s, dateKey m = .jstr s) :
    ∃ ds : List String, (sortDesc rs).map dateKey = ds.map JValue.jstr ∧
      ds.Pairwise (fun a b => b ≤ a) := by
  refine ⟨(sortDesc rs).map (fun m => strOf (dateKey m)), ?_, ?_⟩
  · rw [List.map_map]
    refine List.map_congr_left ?_
    intro m hm
    rcases hstr m (mem_sortDesc.1 hm) with ⟨s, hs⟩
    show dateKey m = .jstr (strOf (dateKey m))
    rw [hs]
    rfl
  · rw [List.pairwise_map]
    refine (sortDesc_sorted rs).imp_of_mem ?_
    intro a b ha hb hab
    rcases hstr a (mem_sortDesc.1 ha) with ⟨sa, hsa⟩
    rcases hstr b (mem_sortDesc.1 hb) with ⟨sb, hsb⟩
    have hab2 : jle (dateKey b) (dateKey a) = true := hab
    rw [hsa, hsb] at hab2 ⊢
    show sb ≤ sa
    exact of_decide_eq_true hab2

/-- As above, but strictly decreasing when the dates are pairwise
distinct. -/
theorem sortDesc_string_dates_strict (rs : List Record)
    (hstr : ∀ m ∈ rs, ∃ s, dateKey m = .jstr s)
    (hnd : (rs.map dateKey).Nodup) :
    ∃ ds : List String, (sortDesc rs).map dateKey = ds.map JValue.jstr ∧
      ds.Pairwise (fun a b => b < a) := by
  refine ⟨(sortDesc rs).map (fun m => strOf (dateKey m)), ?_, ?_⟩
  · rw [List.map_map]
    refine List.map_congr_left ?_
    intro m hm
    rcases hstr m (mem_sortDesc.1 hm) with ⟨s, hs⟩
    show dateKey m = .jstr (strOf (dateKey m))
    rw [hs]
    rfl
  · rw [List.pairwise_map]
    have hnd2 : ((sortDesc rs).map dateKey).Nodup :=
      (((sortDesc_perm rs).map dateKey).nodup_iff).2 hnd
    have hne : (sortDesc rs).Pairwise (fun a b => dateKey a ≠ dateKey b) :=
      (List.pairwise_map).1 hnd2
    have hcomb := (sortDesc_sorted rs).and hne
    refine hcomb.imp_of_mem ?_
    intro a b ha hb hab
    rcases hstr a (mem_sortDesc.1 ha) with ⟨sa, hsa⟩
    rcases hstr b (mem_sortDesc.1 hb) with ⟨sb, hsb⟩
    have hab2 : jle (dateKey b) (dateKey a) = true := hab.1
    have hne2 : dateKey a ≠ dateKey b := hab.2
    rw [hsa, hsb] at hab2 hne2 ⊢
    show sb < sa
    refine lt_of_le_of_ne (of_decide_eq_true hab2) ?_
    intro hss
    exact hne2 (by rw [hss])

/-- C4: for every input to `merge_indicators_by_date` in which every record
has a string `date` field, the output sequence is sorted strictly descending
by the `date` field under the string order of the date representation
(strict because output dates are distinct). -/
theorem merge_indicators_sorted_strictly_descending
    (inds : List (String × List Record))
    (hstr : ∀ c ∈ inds, ∀ r ∈ c.2, isStrDate r = true) :
    ∃ out, merge_indicators_by_date inds = .ok out ∧
      ∃ ds : List String, out.map dateKey = ds.map JValue.jstr ∧
        ds.Pairwise (fun a b => b < a) := by
  have hdate : ∀ c ∈ inds, ∀ r ∈ c.2, (dget r "date").isSome = true :=
    fun c hc r hr => isSome_of_isStrDate (hstr c hc r hr)
  refine ⟨_, merge_indicators_ok inds hdate, ?_⟩
  have hvdate : ∀ e ∈ (pairs inds).foldl pstep [], dateKey e.2 = e.1 :=
    fun e he => getOrNull_of_dget (runInd_entry_date inds he)
  have hvstr : ∀ m ∈ ((pairs inds).foldl pstep []).map Prod.snd, ∃ s, dateKey m = .jstr s := by
    intro m hm
    rcases List.mem_map.1 hm with ⟨e, he, rfl⟩
    rw [hvdate e he]
    have he2 := he
    rw [pstep_eq_dstep_ind] at he2
    have hin := (entry_foldl_dstep pdate indInit indUpd (pairs inds) he2).1
    rcases List.mem_map.1 hin with ⟨x, hx, hxe⟩
    rcases mem_pairs.1 hx with ⟨c, hc, _, hc2⟩
    rcases isStrDate_iff.1 (hstr c hc x.2 hc2) with ⟨s, hs⟩
    refine ⟨s, ?_⟩
    rw [← hxe, show pdate x = getOrNull x.2 "date" from rfl, getOrNull_of_dget hs]
  have hnd : ((((pairs inds).foldl pstep []).map Prod.snd).map dateKey).Nodup := by
    have hcong : (((pairs inds).foldl pstep []).map (dateKey ∘ Prod.snd))
        = ((pairs inds).foldl pstep []).map Prod.fst :=
      List.map_congr_left (fun e he => hvdate e he)
    rw [List.map_map, hcong, pstep_eq_dstep_ind]
    exact nodup_keys_foldl_dstep pdate indInit indUpd (pairs inds)
  exact sortDesc_string_dates_strict _ hvstr hnd

/-- Witness for C4 at the spec's two-category scenario. -/
theorem merge_indicators_sorted_strictly_descending_witness :
    (∀ c ∈ sampleInds, ∀ r ∈ c.2, isStrDate r = true) ∧
    (∃ out, merge_indicators_by_date sampleInds = .ok out ∧
      ∃ ds : List String, out.map dateKey = ds.map JValue.jstr ∧
        ds.Pairwise (fun a b => b < a)) :=
  ⟨by decide, merge_indicators_sorted_strictly_descending sampleInds (by decide)⟩

/-- C6: for every input record list in which every record has a (string)
`date` field, both sort-only merges (`merge_financial_growth_data` and
`merge_as_reported_financial_data`) return the same permutation of the input
— every record survives unchanged, with no cross-record merge, and records
sharing a date both survive as separate entries — sorted non-increasing by
the `date` field. -/
theorem merge_sort_only_permutation (xs : List Record)
    (hstr : ∀ r ∈ xs, isStrDate r = true) :
    ∃ out, merge_financial_growth_data xs = .ok out ∧
      merge_as_reported_financial_data xs = .ok out ∧
      List.Perm out xs ∧
      ∃ ds : List String, out.map dateKey = ds.map JValue.jstr ∧
        ds.Pairwise (fun a b => b ≤ a) := by
  have hall : (xs.all (fun r => (dget r "date").isSome)) = true := by
    rw [List.all_eq_true]
    exact fun r hr => isSome_of_isStrDate (hstr r hr)
  refine ⟨sortDesc xs, ?_, ?_, sortDesc_perm xs, ?_⟩
  · rw [merge_financial_growth_data, if_pos hall]
  · rw [merge_as_reported_financial_data, if_pos hall]
  · refine sortDesc_string_dates xs ?_
    intro m hm
    rcases isStrDate_iff.1 (hstr m hm) with ⟨s, hs⟩
    exact ⟨s, getOrNull_of_dget hs⟩

/-- A single-category record list with a duplicated date. -/
def sampleGrowth : List Record :=
  [[("date", .jstr "2024-01-02"), ("growthRevenue", .jnum 1)],
   [("date", .jstr "2024-01-05"), ("growthRevenue", .jnum 2)],
   [("date", .jstr "2024-01-02"), ("growthRevenue", .jnum 3)]]

/-- Witness for C6 at a list with a duplicated date. -/
theorem merge_sort_only_permutation_witness :
    (∀ r ∈ sampleGrowth, isStrDate r = true) ∧
    (∃ out, merge_financial_growth_data sampleGrowth = .ok out ∧
      merge_as_reported_financial_data sampleGrowth = .ok out ∧
      List.Perm out sampleGrowth ∧
      ∃ ds : List String, out.map dateKey = ds.map JValue.jstr ∧
        ds.Pairwise (fun a b => b ≤ a)) :=
  ⟨by decide, merge_sort_only_permutation sampleGrowth (by decide)⟩

/-- C5: each merge operation fails with `MalformedRecordError` if and only
if some input record lacks a `date` field, and on failure produces no output
at all (the `Except` error carries no partial result); when every record has
a `date` field no failure occurs, and no other validation is performed. -/
theorem merge_error_iff_missing_date (inds : List (String × List Record))
    (sources : List (List Record)) :
    (merge_indicators_by_date inds = .error .malformedRecord ↔
      ∃ c ∈ inds, ∃ r ∈ c.2, dget r "date" = none) ∧
    (merge_quarterly_fundamental_data sources = .error .malformedRecord ↔
      ∃ src ∈ sources, ∃ r ∈ src, dget r "date" = none) ∧
    ((∀ c ∈ inds, ∀ r ∈ c.2, (dget r "date").isSome = true) →
      ∃ out, merge_indicators_by_date inds = .ok out) ∧
    ((∀ src ∈ sources, ∀ r ∈ src, (dget r "date").isSome = true) →
      ∃ out, merge_quarterly_fundamental_data sources = .ok out) := by
  refine ⟨?_, ?_, fun h => ⟨_, merge_indicators_ok inds h⟩,
    fun h => ⟨_, merge_quarterly_ok sources h⟩⟩
  · rw [merge_indicators_run]
    by_cases hall : ((pairs inds).all fun x => (dget x.2 "date").isSome) = true
    · rw [if_pos hall]
      simp only [reduceCtorEq, false_iff]
      rintro ⟨c, hc, r, hr, hnone⟩
      have := List.all_eq_true.1 hall (c.1, r) (mem_pairs.2 ⟨c, hc, rfl, hr⟩)
      rw [hnone] at this
      cases this
    · rw [if_neg hall, eq_self_iff_true, true_iff]
      rcases List.all_eq_false.1 (Bool.eq_false_iff.2 hall) with ⟨x, hx, hxf⟩
      rcases mem_pairs.1 hx with ⟨c, hc, _, hc2⟩
      exact ⟨c, hc, x.2, hc2,
        Option.not_isSome_iff_eq_none.1 (fun hs => hxf hs)⟩
  · rw [merge_quarterly_run]
    by_cases hall : (sources.flatten.all fun r => (dget r "date").isSome) = true
    · rw [if_pos hall]
      simp only [reduceCtorEq, false_iff]
      rintro ⟨src, hsrc, r, hr, hnone⟩
      have := List.all_eq_true.1 hall r (List.mem_flatten.2 ⟨src, hsrc, hr⟩)
      rw [hnone] at this
      cases this
    · rw [if_neg hall, eq_self_iff_true, true_iff]
      rcases List.all_eq_false.1 (Bool.eq_false_iff.2 hall) with ⟨r, hr, hrf⟩
      rcases List.mem_flatten.1 hr with ⟨src, hsrc, hrs⟩
      exact ⟨src, hsrc, r, hrs,
        Option.not_isSome_iff_eq_none.1 (fun hs => hrf hs)⟩

/-- Witness for C5: a record without a `date` field makes both operations
fail. -/
theorem merge_error_iff_missing_date_witness :
    merge_indicators_by_date [("sma", [[("sma", .jnum 1)]])]
        = .error .malformedRecord ∧
      merge_quarterly_fundamental_data [[[("revenue", .jnum 1)]]]
        = .error .malformedRecord :=
  ⟨(merge_error_iff_missing_date [("sma", [[("sma", .jnum 1)]])] []).1.mpr (by decide),
    (merge_error_iff_missing_date [] [[[("revenue", .jnum 1)]]]).2.1.mpr (by decide)⟩

/-! ### Contents of the quarterly merge's per-date records -/

/-- The merged record for date `d` after the quarterly loop: the fold of
whole-record updates over the records dated `d`, in processing order. -/
def qrecFor (d : JValue) (rs : List Record) : Record :=
  genRec (fun item => getOrNull item "date") (fun _ _ => ([] : Record))
    (fun item r => dupdate r item) d rs

theorem accGet_runQ (rs : List Record) (d : JValue) :
    accGet (rs.foldl qstep []) d =
      if d ∈ rs.map (fun item => getOrNull item "date") then some (qrecFor d rs)
      else none := by
  rw [qstep_eq_dstep]
  exact accGet_foldl_dstep _ _ _ rs d

theorem dget_qrecFor (rs : List Record) (d : JValue)
    (hne : rs.filter (fun r => decide (getOrNull r "date" = d)) ≠ [])
    (hwf : ∀ r ∈ rs, (r.map Prod.fst).Nodup) (k : String) :
    dget (qrecFor d rs) k =
      ((rs.filter (fun r => decide (getOrNull r "date" = d))).reverse.findSome?
        (fun r => dget r k)) := by
  have hsel : selFor (fun item => getOrNull item "date") d rs
      = rs.filter (fun r => decide (getOrNull r "date" = d)) := rfl
  rcases List.exists_cons_of_ne_nil (hsel ▸ hne) with ⟨x0, sel, hx0⟩
  have hhead : (selFor (fun item => getOrNull item "date") d rs).head? = some x0 := by
    rw [hx0]
    rfl
  rw [qrecFor, genRec, hhead]
  have hfold := dget_foldl_dupdate (selFor (fun item => getOrNull item "date") d rs) [] k
    (fun r hr => hwf r (List.mem_of_mem_filter hr))
  rw [hfold, hsel]
  rcases ((rs.filter (fun r => decide (getOrNull r "date" = d))).reverse.findSome?
      (fun r => dget r k)) with _ | v
  · rfl
  · rfl

theorem qrecFor_date (rs : List Record) (d : JValue)
    (hne : rs.filter (fun r => decide (getOrNull r "date" = d)) ≠ [])
    (hdate : ∀ r ∈ rs, (dget r "date").isSome = true)
    (hwf : ∀ r ∈ rs, (r.map Prod.fst).Nodup) :
    dget (qrecFor d rs) "date" = some d := by
  rw [dget_qrecFor rs d hne hwf]
  have hrev : (rs.filter (fun r => decide (getOrNull r "date" = d))).reverse ≠ [] := by
    intro hh
    exact hne (by rwa [List.reverse_eq_nil_iff] at hh)
  rcases List.exists_cons_of_ne_nil hrev with ⟨r0, rest, hr0⟩
  have hr0m : r0 ∈ rs.filter (fun r => decide (getOrNull r "date" = d)) := by
    rw [← List.mem_reverse, hr0]
    exact List.mem_cons_self _ _
  rcases List.mem_filter.1 hr0m with ⟨hr0rs, hr0d⟩
  rw [hr0, List.findSome?_cons]
  rw [dget_of_isSome (hdate r0 hr0rs), of_decide_eq_true hr0d]

theorem runQ_entry_date (rs : List Record)
    (hdate : ∀ r ∈ rs, (dget r "date").isSome = true)
    (hwf : ∀ r ∈ rs, (r.map Prod.fst).Nodup)
    {e : JValue × Record} (he : e ∈ rs.foldl qstep []) :
    dget e.2 "date" = some e.1 := by
  rw [qstep_eq_dstep] at he
  rcases entry_foldl_dstep _ _ _ rs he with ⟨hin, heq⟩
  have hne : rs.filter (fun r => decide (getOrNull r "date" = e.1)) ≠ [] :=
    (mem_map_key_iff (fun item => getOrNull item "date") e.1 rs).1 hin
  rw [heq]
  exact qrecFor_date rs e.1 hne hdate hwf

/-- C2: for every ordered sequence of source record lists in which every
record has a `date` field (records well-formed: distinct keys), the output
record for a date `d` equals the shallow field union of all source records
dated `d`, with records from later sources (and later records within a
source) overriding earlier ones field-by-field: each field's value comes
from the last record dated `d` (in processing order) that contains the
field. -/
theorem merge_quarterly_shallow_union
    (sources : List (List Record))
    (hdate : ∀ src ∈ sources, ∀ r ∈ src, (dget r "date").isSome = true)
    (hwf : ∀ src ∈ sources, ∀ r ∈ src, (r.map Prod.fst).Nodup)
    (d : JValue) (hd : ∃ src ∈ sources, ∃ r ∈ src, dget r "date" = some d) :
    ∃ out m, merge_quarterly_fundamental_data sources = .ok out ∧ m ∈ out ∧
      (∀ m2 ∈ out, dget m2 "date" = some d → m2 = m) ∧
      dget m "date" = some d ∧
      ∀ k, dget m k =
        ((sources.flatten.filter
            (fun r => decide (getOrNull r "date" = d))).reverse.findSome?
          (fun r => dget r k)) := by
  have hdate2 : ∀ r ∈ sources.flatten, (dget r "date").isSome = true := by
    intro r hr
    rcases List.mem_flatten.1 hr with ⟨src, hsrc, hrs⟩
    exact hdate src hsrc r hrs
  have hwf2 : ∀ r ∈ sources.flatten, (r.map Prod.fst).Nodup := by
    intro r hr
    rcases List.mem_flatten.1 hr with ⟨src, hsrc, hrs⟩
    exact hwf src hsrc r hrs
  have hin : d ∈ sources.flatten.map (fun item => getOrNull item "date") := by
    rcases hd with ⟨src, hsrc, r, hr, hrd⟩
    exact List.mem_map.2 ⟨r, List.mem_flatten.2 ⟨src, hsrc, hr⟩, getOrNull_of_dget hrd⟩
  have hne : sources.flatten.filter (fun r => decide (getOrNull r "date" = d)) ≠ [] :=
    (mem_map_key_iff (fun item => getOrNull item "date") d sources.flatten).1 hin
  refine ⟨_, qrecFor d sources.flatten, merge_quarterly_ok sources hdate, ?_, ?_, ?_, ?_⟩
  · rw [mem_sortDesc]
    have hacc : accGet (sources.flatten.foldl qstep []) d = some (qrecFor d sources.flatten) := by
      rw [accGet_runQ, if_pos hin]
    exact List.mem_map_of_mem Prod.snd (accGet_mem hacc)
  · intro m2 hm2 hdm2
    rw [mem_sortDesc] at hm2
    rcases List.mem_map.1 hm2 with ⟨e, he, rfl⟩
    have hde := runQ_entry_date sources.flatten hdate2 hwf2 he
    rw [hde] at hdm2
    have he1 : e.1 = d := Option.some.inj hdm2
    rw [qstep_eq_dstep] at he
    have heq := (entry_foldl_dstep _ _ _ sources.flatten he).2
    rw [he1] at heq
    exact heq
  · exact qrecFor_date sources.flatten d hne hdate2 hwf2
  · exact fun k => dget_qrecFor sources.flatten d hne hwf2 k

/-- The spec's scenario sources: one income record, one balance record. -/
def sampleSources : List (List Record) :=
  [[[("date", .jstr "2024-Q1"), ("revenue", .jnum 100)]],
   [[("date", .jstr "2024-Q1"), ("assets", .jnum 500)]]]

/-- Witness for C2 at the spec's income/balance scenario, together with the
spec's expected merged record. -/
theorem merge_quarterly_shallow_union_witness :
    ((∀ src ∈ sampleSources, ∀ r ∈ src, (dget r "date").isSome = true) ∧
      (∀ src ∈ sampleSources, ∀ r ∈ src, (r.map Prod.fst).Nodup) ∧
      (∃ src ∈ sampleSources, ∃ r ∈ src, dget r "date" = some (.jstr "2024-Q1"))) ∧
    (∃ out m, merge_quarterly_fundamental_data sampleSources = .ok out ∧ m ∈ out ∧
      (∀ m2 ∈ out, dget m2 "date" = some (.jstr "2024-Q1") → m2 = m) ∧
      dget m "date" = some (.jstr "2024-Q1") ∧
      ∀ k, dget m k =
        ((sampleSources.flatten.filter
            (fun r => decide (getOrNull r "date" = JValue.jstr "2024-Q1"))).reverse.findSome?
          (fun r => dget r k))) ∧
    merge_quarterly_fundamental_data sampleSources =
      .ok [[("date", .jstr "2024-Q1"), ("revenue", .jnum 100), ("assets", .jnum 500)]] :=
  ⟨⟨by decide, by decide, by decide⟩,
    merge_quarterly_shallow_union sampleSources (by decide) (by decide)
      (.jstr "2024-Q1") (by decide),
    by decide⟩

/-- C10: in the quarterly merge, when two records within the same single
source share an identical date, the later record's fields fully overwrite
the earlier record's same-named fields — whole-record last-writer-wins,
identical to the cross-source collision rule: merging one source equals
merging the same records split into singleton sources.  Concretely, no
first-seen baseline is preserved: the later record's `a` replaces the
earlier one's while the earlier record's other fields survive. -/
theorem merge_quarterly_within_source_last_writer_wins (rs : List Record) :
    merge_quarterly_fundamental_data [rs] =
      merge_quarterly_fundamental_data (rs.map (fun r => [r])) ∧
    merge_quarterly_fundamental_data
        [[[("date", .jstr "2024-Q1"), ("a", .jnum 1), ("b", .jnum 2)],
          [("date", .jstr "2024-Q1"), ("a", .jnum 3)]]] =
      .ok [[("date", .jstr "2024-Q1"), ("a", .jnum 3), ("b", .jnum 2)]] := by
  constructor
  · unfold merge_quarterly_fundamental_data
    rw [foldlM_flatten, foldlM_flatten]
    have h2 : ∀ l : List Record, (l.map (fun r => [r])).flatten = l := by
      intro l
      induction l with
      | nil => rfl
      | cons r rest ih =>
        simp only [List.map_cons, List.flatten_cons, ih, List.singleton_append]
    have h1 : ([rs] : List (List Record)).flatten = rs := by simp
    rw [h1, h2]
  · decide

/-- C8: for every fixed input, two runs of `merge_indicators_by_date` or of
the `merge_quarterly_fundamental_data` merge step produce identical output —
both operations are deterministic functions of their input given fixed input
order (the embedding is pure: the output depends on nothing but the
argument). -/
theorem merge_deterministic
    (inds inds2 : List (String × List Record)) (sources sources2 : List (List Record))
    (h1 : inds = inds2) (h2 : sources = sources2) :
    merge_indicators_by_date inds = merge_indicators_by_date inds2 ∧
    merge_quarterly_fundamental_data sources = merge_quarterly_fundamental_data sources2 := by
  rw [h1, h2]
  exact ⟨rfl, rfl⟩

/-- Witness for C8. -/
theorem merge_deterministic_witness :
    (sampleInds = sampleInds ∧ sampleSources = sampleSources) ∧
    (merge_indicators_by_date sampleInds = merge_indicators_by_date sampleInds ∧
      merge_quarterly_fundamental_data sampleSources
        = merge_quarterly_fundamental_data sampleSources) :=
  ⟨⟨rfl, rfl⟩, merge_deterministic sampleInds sampleInds sampleSources sampleSources rfl rfl⟩

/-! ### Frame property: a store-passing model

The Python merge loops read their input dicts and mutate only the fresh
accumulator dicts that the `defaultdict` creates.  To state this, both loops
are re-translated over an explicit store of records: input records are
references (indices) into the store, the accumulator maps dates to
references, the per-date dict is allocated at the end of the store when a
date is first seen, and every mutation (`merged_data[date][k] = v` /
`merged_data[date].update(item)`) is a store write through that reference.
The frame theorem shows every pre-existing cell — in particular every input
record — is unchanged, and all output references are freshly allocated
(disjoint from the inputs and from any earlier invocation's outputs). -/

abbrev Store := List Record

/-- Dereference; reading follows a pointer into the store. -/
def readRef (σ : Store) (i : Nat) : Record :=
  (σ[i]?).getD []

/-- In-place mutation of the record a reference points to. -/
def writeRef (σ : Store) (i : Nat) (r : Record) : Store :=
  σ.set i r

/-- The accumulator of the store model: dates mapped to references. -/
abbrev AccR := List (JValue × Nat)

def accGetR : AccR → JValue → Option Nat
  | [], _ => none
  | e :: acc, d => if e.1 = d then some e.2 else accGetR acc d

def accHasR (acc : AccR) (d : JValue) : Bool :=
  (accGetR acc d).isSome

theorem accGetR_mem {acc : AccR} {d : JValue} {j : Nat} (h : accGetR acc d = some j) :
    (d, j) ∈ acc := by
  induction acc with
  | nil => cases h
  | cons e acc ih =>
    by_cases he : e.1 = d
    · rw [accGetR, if_pos he] at h
      cases h
      have hde : (d, e.2) = e := by rw [← he]
      rw [hde]
      exact List.mem_cons_self _ _
    · rw [accGetR, if_neg he] at h
      exact List.mem_cons_of_mem _ (ih h)

theorem accGetR_append (acc acc2 : AccR) (d : JValue) :
    accGetR (acc ++ acc2) d =
      if (accGetR acc d).isSome then accGetR acc d else accGetR acc2 d := by
  induction acc with
  | nil => simp [accGetR]
  | cons e acc ih =>
    by_cases h : e.1 = d <;> simp [accGetR, h, ih]

/-- The store-model iteration of the indicator loop. -/
def indStepSt (name : String) (s : AccR × Store) (pref : Nat) :
    Except MergeError (AccR × Store) :=
  let p := readRef s.2 pref
  match dget p "date" with
  | none => .error .malformedRecord
  | some d =>
    let t := if accHasR s.1 d then s
      else (s.1 ++ [(d, s.2.length)], s.2 ++ [baseline d p])
    let j := (accGetR t.1 d).getD 0
    .ok (t.1, writeRef t.2 j (dset (readRef t.2 j) name (getOrNull p name)))

/-- The store-model iteration of the quarterly loop. -/
def fieldStepSt (s : AccR × Store) (iref : Nat) :
    Except MergeError (AccR × Store) :=
  let item := readRef s.2 iref
  match dget item "date" with
  | none => .error .malformedRecord
  | some d =>
    let t := if accHasR s.1 d then s
      else (s.1 ++ [(d, s.2.length)], s.2 ++ [([] : Record)])
    let j := (accGetR t.1 d).getD 0
    .ok (t.1, writeRef t.2 j (dupdate (readRef t.2 j) item))

def refGE (σ : Store) (i j : Nat) : Prop :=
  dateGE (readRef σ i) (readRef σ j)

instance (σ : Store) : DecidableRel (refGE σ) := fun _i _j =>
  inferInstanceAs (Decidable (dateGE _ _))

/-- The final sort, comparing the records the references point to. -/
def sortRefs (σ : Store) (refs : List Nat) : List Nat :=
  List.insertionSort (refGE σ) refs

/-- `merge_indicators_by_date` in the store model. -/
def merge_indicators_by_date_st (inds : List (String × List Nat)) (σ0 : Store) :
    Except MergeError (List Nat × Store) := do
  let s ← inds.foldlM (fun s c => c.2.foldlM (indStepSt c.1) s) ((([] : AccR), σ0))
  pure (sortRefs s.2 (s.1.map Prod.snd), s.2)

/-- The `merge_quarterly_fundamental_data` loop in the store model. -/
def merge_quarterly_fundamental_data_st (sources : List (List Nat)) (σ0 : Store) :
    Except MergeError (List Nat × Store) := do
  let s ← sources.foldlM (fun s data => data.foldlM fieldStepSt s) ((([] : AccR), σ0))
  pure (sortRefs s.2 (s.1.map Prod.snd), s.2)

/-- The frame invariant relative to the initial store: the store only grew,
pre-existing cells are untouched, and all accumulator references point into
the freshly allocated region. -/
def FrameInv (σ0 : Store) (s : AccR × Store) : Prop :=
  σ0.length ≤ s.2.length ∧
  (∀ i, i < σ0.length → readRef s.2 i = readRef σ0 i) ∧
  (∀ e ∈ s.1, σ0.length ≤ e.2 ∧ e.2 < s.2.length)

theorem readRef_set_ne (σ : Store) (i j : Nat) (r : Record) (h : j ≠ i) :
    readRef (writeRef σ j r) i = readRef σ i := by
  rw [readRef, writeRef, List.getElem?_set_ne h]
  rfl

theorem readRef_append_left (σ σ2 : Store) (i : Nat) (h : i < σ.length) :
    readRef (σ ++ σ2) i = readRef σ i := by
  rw [readRef, List.getElem?_append_left h]
  rfl

/-- Preservation of the frame invariant by the common step shape. -/
theorem frame_step (σ0 : Store) (s : AccR × Store) (hInv : FrameInv σ0 s)
    (d : JValue) (b : Record) (g : Record → Record) :
    FrameInv σ0
      (let t := if accHasR s.1 d then s else (s.1 ++ [(d, s.2.length)], s.2 ++ [b])
       let j := (accGetR t.1 d).getD 0
       (t.1, writeRef t.2 j (g (readRef t.2 j)))) := by
  rcases hInv with ⟨hlen, hread, hacc⟩
  by_cases hmem : accHasR s.1 d
  · simp only [if_pos hmem]
    rcases Option.isSome_iff_exists.1 hmem with ⟨j0, hj0⟩
    have hj0b := hacc (d, j0) (accGetR_mem hj0)
    rw [hj0]
    refine ⟨by simpa [writeRef] using hlen, ?_, ?_⟩
    · intro i hi
      rw [show (Option.some j0).getD 0 = j0 from rfl]
      rw [readRef_set_ne s.2 i j0 _ (by omega)]
      exact hread i hi
    · intro e he
      have := hacc e he
      constructor
      · exact this.1
      · simpa [writeRef] using this.2
  · simp only [if_neg hmem]
    have hnone : accGetR s.1 d = none :=
      Option.not_isSome_iff_eq_none.1 (fun hs => hmem hs)
    have hget : accGetR (s.1 ++ [(d, s.2.length)]) d = some s.2.length := by
      rw [accGetR_append, hnone]
      simp [accGetR]
    rw [hget]
    have hlen2 : (writeRef (s.2 ++ [b]) s.2.length (g (readRef (s.2 ++ [b]) s.2.length))).length
        = s.2.length + 1 := by
      simp [writeRef]
    refine ⟨?_, ?_, ?_⟩
    · rw [show (Option.some s.2.length).getD 0 = s.2.length from rfl]
      rw [hlen2]
      omega
    · intro i hi
      rw [show (Option.some s.2.length).getD 0 = s.2.length from rfl]
      rw [readRef_set_ne _ i s.2.length _ (by omega),
        readRef_append_left _ _ i (by omega)]
      exact hread i hi
    · intro e he
      rw [show (Option.some s.2.length).getD 0 = s.2.length from rfl, hlen2]
      rcases List.mem_append.1 he with he | he
      · have := hacc e he
        omega
      · simp only [List.mem_singleton] at he
        rw [he]
        constructor
        · exact hlen
        · omega

theorem indStepSt_inv (σ0 : Store) (name : String) (s : AccR × Store) (pref : Nat)
    (s1 : AccR × Store) (hInv : FrameInv σ0 s)
    (hstep : indStepSt name s pref = .ok s1) : FrameInv σ0 s1 := by
  rw [indStepSt] at hstep
  rcases hd : dget (readRef s.2 pref) "date" with _ | d
  · rw [hd] at hstep
    cases hstep
  · rw [hd] at hstep
    cases hstep
    exact frame_step σ0 s hInv d (baseline d (readRef s.2 pref))
      (fun r => dset r name (getOrNull (readRef s.2 pref) name))

theorem fieldStepSt_inv (σ0 : Store) (s : AccR × Store) (iref : Nat)
    (s1 : AccR × Store) (hInv : FrameInv σ0 s)
    (hstep : fieldStepSt s iref = .ok s1) : FrameInv σ0 s1 := by
  rw [fieldStepSt] at hstep
  rcases hd : dget (readRef s.2 iref) "date" with _ | d
  · rw [hd] at hstep
    cases hstep
  · rw [hd] at hstep
    cases hstep
    exact frame_step σ0 s hInv d []
      (fun r => dupdate r (readRef s.2 iref))

/-- C9: for every input, the merge loops leave their input collections and
every input record unchanged — the inputs are read-only to the merge — and
every output record is freshly allocated, sharing no mutable cell with the
inputs or with any previous invocation's outputs. -/
theorem merge_frame (inds : List (String × List Nat)) (sources : List (List Nat))
    (σ0 : Store) :
    (∀ refs σ1, merge_indicators_by_date_st inds σ0 = .ok (refs, σ1) →
      σ0.length ≤ σ1.length ∧
      (∀ i, i < σ0.length → readRef σ1 i = readRef σ0 i) ∧
      (∀ j ∈ refs, σ0.length ≤ j ∧ j < σ1.length)) ∧
    (∀ refs σ1, merge_quarterly_fundamental_data_st sources σ0 = .ok (refs, σ1) →
      σ0.length ≤ σ1.length ∧
      (∀ i, i < σ0.length → readRef σ1 i = readRef σ0 i) ∧
      (∀ j ∈ refs, σ0.length ≤ j ∧ j < σ1.length)) := by
  have hInv0 : FrameInv σ0 (([] : AccR), σ0) :=
    ⟨le_refl _, fun i _ => rfl, by simp⟩
  constructor
  · intro refs σ1 h
    rw [merge_indicators_by_date_st] at h
    rcases hfold : inds.foldlM (fun s c => c.2.foldlM (indStepSt c.1) s) ((([] : AccR), σ0))
      with e | s
    · rw [hfold] at h
      cases h
    · rw [hfold] at h
      have hInv : FrameInv σ0 s := by
        refine foldlM_inv _ (FrameInv σ0) ?_ inds (([], σ0)) hInv0 s hfold
        intro s2 c s3 h2 h3
        exact foldlM_inv (indStepSt c.1) (FrameInv σ0)
          (fun s4 x s5 h4 h5 => indStepSt_inv σ0 c.1 s4 x s5 h4 h5) c.2 s2 h2 s3 h3
      have h2 : (sortRefs s.2 (s.1.map Prod.snd), s.2) = (refs, σ1) := by
        exact Except.ok.inj h
      rcases Prod.mk.injEq _ _ _ _ ▸ h2 with ⟨hrefs, hsig⟩
      refine ⟨hsig ▸ hInv.1, fun i hi => hsig ▸ hInv.2.1 i hi, ?_⟩
      intro j hj
      rw [← hrefs] at hj
      have hj2 : j ∈ s.1.map Prod.snd :=
        ((List.perm_insertionSort (refGE s.2) (s.1.map Prod.snd)).mem_iff).1 hj
      rcases List.mem_map.1 hj2 with ⟨e2, he2, rfl⟩
      have := hInv.2.2 e2 he2
      exact ⟨this.1, hsig ▸ this.2⟩
  · intro refs σ1 h
    rw [merge_quarterly_fundamental_data_st] at h
    rcases hfold : sources.foldlM (fun s data => data.foldlM fieldStepSt s) ((([] : AccR), σ0))
      with e | s
    · rw [hfold] at h
      cases h
    · rw [hfold] at h
      have hInv : FrameInv σ0 s := by
        refine foldlM_inv _ (FrameInv σ0) ?_ sources (([], σ0)) hInv0 s hfold
        intro s2 data s3 h2 h3
        exact foldlM_inv fieldStepSt (FrameInv σ0)
          (fun s4 x s5 h4 h5 => fieldStepSt_inv σ0 s4 x s5 h4 h5) data s2 h2 s3 h3
      have h2 : (sortRefs s.2 (s.1.map Prod.snd), s.2) = (refs, σ1) := by
        exact Except.ok.inj h
      rcases Prod.mk.injEq _ _ _ _ ▸ h2 with ⟨hrefs, hsig⟩
      refine ⟨hsig ▸ hInv.1, fun i hi => hsig ▸ hInv.2.1 i hi, ?_⟩
      intro j hj
      rw [← hrefs] at hj
      have hj2 : j ∈ s.1.map Prod.snd :=
        ((List.perm_insertionSort (refGE s.2) (s.1.map Prod.snd)).mem_iff).1 hj
      rcases List.mem_map.1 hj2 with ⟨e2, he2, rfl⟩
      have := hInv.2.2 e2 he2
      exact ⟨this.1, hsig ▸ this.2⟩

/-- A one-record store for the frame witness. -/
def w9Store : Store :=
  [[("date", .jstr "2024-01-02"), ("sma", .jnum 1)]]

/-- The store after the witness run: the input cell plus the fresh merged
record. -/
def w9StoreAfter : Store :=
  [[("date", .jstr "2024-01-02"), ("sma", .jnum 1)],
   [("date", .jstr "2024-01-02"), ("open", .jnull), ("high", .jnull), ("low", .jnull),
    ("close", .jnull), ("volume", .jnull), ("sma", .jnum 1)]]

/-- Witness for C9: a concrete run leaves the input cell untouched and
returns a fresh reference. -/
theorem merge_frame_witness :
    merge_indicators_by_date_st [("sma", [0])] w9Store = .ok ([1], w9StoreAfter) ∧
    (w9Store.length ≤ w9StoreAfter.length ∧
      (∀ i, i < w9Store.length → readRef w9StoreAfter i = readRef w9Store i) ∧
      (∀ j ∈ ([1] : List Nat), w9Store.length ≤ j ∧ j < w9StoreAfter.length)) :=
  ⟨by decide,
    (merge_frame [("sma", [0])] [] w9Store).1 [1] w9StoreAfter (by decide)⟩

end StockResearch

